import Mathlib

/-!
Verification of the base-x repository: a shallow embedding, in Lean 4, of the
arbitrary-precision unsigned integer engine (`uint_t.hh`) and the BaseX codec
(`base_x.hh`), together with theorems settling the frozen claims C1 - C10.

Conventions of the embedding:
* A `uint_t` value is its digit vector: a little-endian `List Nat` whose
  entries are 64-bit digits (each `< 2^64`; the bound is carried as a
  hypothesis where a proof needs it).  `DIGIT_T` is `std::uint64_t` and
  `HALF_DIGIT_T` is `std::uint32_t`, the defaults in the source.
* Machine arithmetic is `Nat` arithmetic with explicit `% 2^64` where the
  C++ computation can wrap.
* Word primitives (`_mult`, `_multadd`, `_divmod`, `_addcarry`,
  `_subborrow`) are embedded from the `__int128` / intrinsic branches that
  a default 64-bit build compiles; the manually split half-digit fallback
  of `_multadd` is embedded separately (claim C9 is about that branch).
* Loops whose C++ termination argument is numeric run on an explicit fuel
  argument chosen (and proved, where a claim depends on it) to be large
  enough that the out-of-fuel branch is never taken.
* Throwing C++ code returns `Except Unit`.
-/

/-- Equality of `Except` results is decidable when it is on both sides;
used to evaluate the embedded throwing functions on concrete inputs. -/
instance {ε α : Type} [DecidableEq ε] [DecidableEq α] : DecidableEq (Except ε α) :=
  fun a b =>
    match a, b with
    | .ok x, .ok y =>
        if h : x = y then .isTrue (by rw [h]) else .isFalse (by simp [h])
    | .error e, .error f =>
        if h : e = f then .isTrue (by rw [h]) else .isFalse (by simp [h])
    | .ok _, .error _ => .isFalse (by simp)
    | .error _, .ok _ => .isFalse (by simp)

/-! ## Word-level constants and primitives (uint_t.hh) -/

namespace uint_t

/-- Number of bits per digit (`digit_bits` for `DIGIT_T = std::uint64_t`). -/
def digit_bits : Nat := 64

/-- Number of bits per half digit (`half_digit_bits`). -/
def half_digit_bits : Nat := 32

/-- One beyond the largest digit: `2^64`.  Digit arithmetic wraps modulo this. -/
def dB : Nat := 2 ^ 64

/-- The value of a little-endian digit vector: `sum d_i * 2^(64*i)`. -/
def valList (l : List Nat) : Nat :=
  l.foldr (fun d acc => d + acc * dB) 0

/-- The value of a little-endian half-digit vector: `sum h_i * 2^(32*i)`. -/
def valHalf (l : List Nat) : Nat :=
  l.foldr (fun h acc => h + acc * 2 ^ 32) 0

/-- The canonical-form predicate of the spec: the most-significant digit is
non-zero unless the vector is empty (the value 0). -/
def canonicalB (l : List Nat) : Bool :=
  match l.getLast? with
  | none => true
  | some d => d != 0

/-- Auxiliary loop of `_bits`, on fuel: the number of right shifts needed to
reach 0 (the `while (x) { x >>= 1; ++c; }` loop). -/
def bitlenAux : Nat → Nat → Nat
  | 0, _ => 0
  | fuel + 1, x => if x = 0 then 0 else bitlenAux fuel (x / 2) + 1

/-- Bit length of a digit.  64 halvings exhaust any value of the 64-bit
digit type, so the fuel never runs out on inputs the C++ can hold. -/
def bitlen (x : Nat) : Nat := bitlenAux 64 x

/-- `uint_t::_bits`: bit length of one digit, except that `_bits 0 = 1`. -/
def bitsDigit (x : Nat) : Nat :=
  if x = 0 then 1 else bitlen x

/-- `uint_t::bits()`: 0 for the empty vector, otherwise
`_bits(back()) + (size - 1) * digit_bits`. -/
def bits (l : List Nat) : Nat :=
  match l.getLast? with
  | none => 0
  | some msw => bitsDigit msw + (l.length - 1) * digit_bits

/-- Strip the zero digits at the most-significant end of a vector
(the `find_if`/`resize` shrink inside `uint_t::trim`). -/
def stripZeros (l : List Nat) : List Nat :=
  (l.reverse.dropWhile (fun d => d == 0)).reverse

/-- `uint_t::trim(mask)`: mask the most-significant digit down to
`mask % 64` bits when that is non-zero, then strip zero digits from the
most-significant end. -/
def trim (mask : Nat) (l : List Nat) : List Nat :=
  let m := mask % 64
  let l1 := if m ≠ 0 then
      match l.reverse with
      | [] => l
      | msw :: rest => ((msw % 2 ^ m) :: rest).reverse
    else l
  stripZeros l1

/-- `uint_t::compare`: longer vector wins, ties broken lexicographically
from the most-significant digit; returns 1, -1 or 0. -/
def compareRevLex : List Nat → List Nat → Int
  | [], [] => 0
  | _, [] => 0
  | [], _ => 0
  | a :: as_, b :: bs => if a > b then 1 else if a < b then -1 else compareRevLex as_ bs

/-- `uint_t::compare` on whole digit vectors. -/
def compare (lhs rhs : List Nat) : Int :=
  if lhs.length > rhs.length then 1
  else if lhs.length < rhs.length then -1
  else compareRevLex lhs.reverse rhs.reverse

/-- `_addcarry` (the `__int128`/intrinsic semantics): returns
`(sum mod 2^64, carry-out)`. -/
def _addcarry (x y c : Nat) : Nat × Nat :=
  ((x + y + c) % dB, (x + y + c) / dB)

/-- `_subborrow` (the `__int128`/intrinsic semantics): returns
`(difference mod 2^64, borrow-out)`. -/
def _subborrow (x y c : Nat) : Nat × Nat :=
  if x ≥ y + c then (x - y - c, 0) else (dB + x - y - c, 1)

/-- `_mult` (widening multiply): returns `(hi, lo)` with
`hi * 2^64 + lo = x * y` for digit inputs. -/
def _mult (x y : Nat) : Nat × Nat :=
  (x * y / dB, x * y % dB)

/-- `_multadd` (the `__int128` branch): `(hi, lo)` of `x*y + a + c`.
The narrowing of the high half to a digit is explicit. -/
def _multadd (x y a c : Nat) : Nat × Nat :=
  ((x * y + a + c) / dB % dB, (x * y + a + c) % dB)

/-- `_multadd`, the manually split half-digit fallback branch (the
`digit_bits == 64` arm compiled when no intrinsic is available).  Every
64-bit intermediate carries its `% 2^64` wrap. -/
def _multadd_fallback (x y a c : Nat) : Nat × Nat :=
  let m32 : Nat := 0xffffffff
  let x0 := x &&& m32
  let x1 := x >>> 32
  let y0 := y &&& m32
  let y1 := y >>> 32
  let u := (x0 * y0 + (a &&& m32) + (c &&& m32)) % dB
  let v := (x1 * y0 + (u >>> 32) + (a >>> 32) + (c >>> 32)) % dB
  let w := (x0 * y1 + (v &&& m32)) % dB
  let lo := ((w <<< 32) % dB + (u &&& m32)) % dB
  let hi := (x1 * y1 + (v >>> 32) + (w >>> 32)) % dB
  (hi, lo)

/-- `_divmod` (the `__int128` branch): `(quotient, remainder)` of the
two-digit value `hi * 2^64 + lo` by `y`.  The C++ narrows the 128-bit
quotient to a digit, hence the explicit `% 2^64`. -/
def _divmodDigit (hi lo y : Nat) : Nat × Nat :=
  ((hi * dB + lo) / y % dB, (hi * dB + lo) % y)

end uint_t

/-! A few sanity examples fixing the intended readings. -/

example : uint_t.valList [3, 1] = 3 + 2 ^ 64 := by
  simp [uint_t.valList, uint_t.dB]

example : uint_t.trim 0 [5, 0, 0] = [5] := by decide

example : uint_t.trim 1 [7] = [1] := by decide

example : uint_t.compare [0, 1] [5] = 1 := by decide

example : uint_t.bits [2 ^ 63] = 64 := by decide

example : uint_t.bits [] = 0 := by decide

/-! ## Shifts (uint_t.hh, bitwise_lshift / bitwise_rshift) -/

namespace uint_t

/-- Word loop of the in-place `bitwise_lshift` for a sub-digit shift amount:
each word becomes `(w << shift) | carried`, carrying out `w >> (64 - shift)`;
a leftover carry is appended as a new most-significant word. -/
def lshiftWords (shift : Nat) : List Nat → Nat → List Nat
  | [], carry => if carry ≠ 0 then [carry] else []
  | w :: rest, carry =>
      ((w <<< shift) % dB ||| carry) :: lshiftWords shift rest (w >>> (64 - shift))

/-- `bitwise_lshift` (in-place form used by `operator<<=` and Knuth D):
prepend `n / 64` zero words, shift by `n % 64` with carries, trim. -/
def lshift (l : List Nat) (n : Nat) : List Nat :=
  if n = 0 then l
  else
    let shifts := n / 64
    let shift := n % 64
    let l1 := List.replicate shifts 0 ++ l
    if shift ≠ 0 then trim 0 (List.replicate shifts 0 ++ lshiftWords shift l 0)
    else trim 0 l1

/-- Word loop of `bitwise_rshift` for a sub-digit shift: walks the vector
from the most-significant word (the input here is the reversed vector),
each word becomes `(w >> shift) | carried`, carrying `(w << (64 - shift))`. -/
def rshiftWords (shift : Nat) : List Nat → Nat → List Nat
  | [], _ => []
  | w :: rest, carry =>
      ((w >>> shift) ||| carry) :: rshiftWords shift rest ((w <<< (64 - shift)) % dB)

/-- `bitwise_rshift` (in-place form): 0 when the shift reaches the whole
bit width, otherwise drop `n / 64` low words and shift by `n % 64`. -/
def rshift (l : List Nat) (n : Nat) : List Nat :=
  if n = 0 then l
  else if n ≥ l.length * 64 then []
  else
    let shifts := n / 64
    let shift := n % 64
    let l1 := l.drop shifts
    if shift ≠ 0 then trim 0 (rshiftWords shift l1.reverse 0).reverse
    else l1

/-! ## Division (uint_t.hh, single_divmod / knuth_divmod / divmod) -/

/-- The per-word sweep of `single_divmod`, over the big-endian digit list:
`r = _divmod(r, d_i, n, &q_i)` from the most-significant word down. -/
def sdGo (n : Nat) : Nat → List Nat → List Nat × Nat
  | r, [] => ([], r)
  | r, d :: ds =>
      let qr := _divmodDigit r d n
      let rest := sdGo n qr.2 ds
      (qr.1 :: rest.1, rest.2)

/-- `uint_t::single_divmod` (single-digit divisor fast path). -/
def single_divmod (lhs rhs : List Nat) : List Nat × List Nat :=
  let n := rhs.headD 0
  let p := sdGo n 0 lhs.reverse
  (trim 0 p.1.reverse, if p.2 = 0 then [] else [p.2])

/-- The D3 tightening loop of `knuth_divmod`: while the two-digit product
`qhat * wm2` exceeds the pair `(rhat, rlo)`, decrement `qhat` and add `wm1`
into `rhat`, stopping early if that addition carries out.  The decrement wraps as
the C++ `--_q` does.  Normalization makes `wm1 >= 2^63`, so at most two
additions fit below `2^64` and fuel 4 is never exhausted. -/
def tighten (wm1 wm2 rlo : Nat) : Nat → Nat → Nat → Nat
  | 0, q, _ => q
  | fuel + 1, q, r =>
      let m := _mult q wm2
      if m.1 > r ∨ (m.1 = r ∧ m.2 > rlo) then
        let q1 := (q + dB - 1) % dB
        let ac := _addcarry r wm1 0
        if ac.2 ≠ 0 then q1
        else tighten wm1 wm2 rlo fuel q1 ac.1
      else q

/-- The D4 multiply-and-subtract of `knuth_divmod`, over the divisor digits
paired with the current window of `v`: interleaved `_multadd` / `_subborrow`,
then one final `_subborrow` of the running borrow alone (the C++ subtracts
`0`, not the final product carry `mulhi`, from the top window digit). -/
def mulsub (q : Nat) : List Nat → List Nat → Nat → Nat → List Nat × Nat
  | w :: ws, v :: vs, mulhi, borrow =>
      let ml := _multadd w q 0 mulhi
      let sb := _subborrow v ml.2 borrow
      let rest := mulsub q ws vs ml.1 sb.2
      (sb.1 :: rest.1, rest.2)
  | [], v :: _, _, borrow =>
      let sb := _subborrow v 0 borrow
      ([sb.1], sb.2)
  | _, [], _, borrow => ([], borrow)

/-- The D6 add-back of `knuth_divmod`: add the divisor back into the window,
with one final `_addcarry` of the running carry into the top digit. -/
def addback : List Nat → List Nat → Nat → List Nat × Nat
  | w :: ws, v :: vs, carry =>
      let ac := _addcarry v w carry
      let rest := addback ws vs ac.2
      (ac.1 :: rest.1, rest.2)
  | [], v :: _, carry =>
      let ac := _addcarry v 0 carry
      ([ac.1], ac.2)
  | _, [], carry => ([], carry)

/-- The D2-D7 loop of `knuth_divmod`, iterating the quotient position `t`
over a descending index list; returns the quotient digits most-significant
first together with the final working vector `v`. -/
def knuthGo (w : List Nat) (w_size wm1 wm2 : Nat) : List Nat → List Nat → List Nat × List Nat
  | [], v => ([], v)
  | t :: ts, v =>
      let hi := v.getD (t + w_size) 0
      let lo := v.getD (t + w_size - 1) 0
      let e := _divmodDigit hi lo wm1
      let rlo := v.getD (t + w_size - 2) 0
      let q0 := tighten wm1 wm2 rlo 4 e.1 e.2
      let window := (v.drop t).take (w_size + 1)
      let ms := mulsub q0 w window 0 0
      let fin :=
        if ms.2 ≠ 0 then
          let ab := addback w ms.1 0
          ((q0 + dB - 1) % dB, ab.1)
        else (q0, ms.1)
      let v1 := v.take t ++ fin.2 ++ v.drop (t + w_size + 1)
      let rest := knuthGo w w_size wm1 wm2 ts v1
      (fin.1 :: rest.1, rest.2)

/-- `uint_t::knuth_divmod` (Knuth Algorithm D), assembled exactly as in the
source: normalize by `d = 64 - _bits(w.back())`, extend the dividend by a
sentinel when its top digit reaches the divisor's, run the quotient loop,
then keep the low `w_size` digits, denormalize and trim. -/
def knuth_divmod (lhs rhs : List Nat) : List Nat × List Nat :=
  let d := 64 - bitsDigit (rhs.getLastD 0)
  let v1 := lshift lhs d
  let w := lshift rhs d
  let v2 := if v1.getLastD 0 ≥ w.getLastD 0 then v1 ++ [0] else v1
  let v_size := v2.length
  let v3 := v2 ++ [0]
  let w_size := w.length
  let k := v_size - w_size
  let wm1 := w.getLastD 0
  let wm2 := w.getD (w_size - 2) 0
  let res := knuthGo w w_size wm1 wm2 (List.range (k + 1)).reverse v3
  (trim 0 res.1.reverse, trim 0 (rshift (res.2.take w_size) d))

/-- `uint_t::divmod`: the dispatch with its fast paths, in source order.
Division by a zero-sized divisor throws (`Except.error`).  (A non-canonical
single-digit zero divisor would be native division by zero, undefined in
C++; no claim exercises it.) -/
def divmod (lhs rhs : List Nat) : Except Unit (List Nat × List Nat) :=
  if rhs.length = 0 then .error ()
  else if lhs.length = 1 ∧ rhs.length = 1 then
    let a := lhs.headD 0
    let b := rhs.headD 0
    .ok ((if a / b = 0 then [] else [a / b]), if a % b = 0 then [] else [a % b])
  else if compare rhs [1] = 0 then .ok (lhs, [])
  else if compare lhs rhs = 0 then .ok ([1], [])
  else if lhs.length = 0 ∨ compare lhs rhs < 0 then .ok ([], lhs)
  else if rhs.length = 1 then .ok (single_divmod lhs rhs)
  else .ok (knuth_divmod lhs rhs)

end uint_t

example : uint_t.lshift [1] 65 = [0, 2] := by decide

example : uint_t.rshift [0, 2] 65 = [1] := by decide

example : uint_t.divmod [7] [2] = .ok ([3], [1]) := by decide

example : uint_t.divmod [5, 5] [0, 1] = .ok ([5], [5]) := by decide

/-! ## Bitwise NOT (uint_t.hh, bitwise_inv / operator~) -/

namespace uint_t

/-- The copying `bitwise_inv(result, lhs)` (lines 961-994), the overload
`operator~` calls: size the result to `max(lhs.size(), 1)` (zeros), invert
the `lhs` digits into the prefix, fill the remainder of the result with
`~0`, then `trim(b ? b : 1)` where `b = lhs.bits()`.  One digit's
complement is its XOR with `2^64 - 1`. -/
def bitwise_inv_copy (lhs : List Nat) : List Nat :=
  let lhs_sz := lhs.length
  let b := bits lhs
  let result_sz := if lhs_sz = 0 then 1 else lhs_sz
  let filled := lhs.map (fun d => d ^^^ (dB - 1)) ++
    List.replicate (result_sz - lhs_sz) (dB - 1)
  trim (if b ≠ 0 then b else 1) filled

/-- `uint_t::operator~` delegates to the copying `bitwise_inv`. -/
def opNot (l : List Nat) : List Nat := bitwise_inv_copy l

/-- The in-place `bitwise_inv(lhs)` (lines 938-959), which `inv()` calls:
append a `0` digit when empty, invert only the first `lhs.size()` digits
(none, for the empty input), then the same trim. -/
def bitwise_inv_inplace (lhs : List Nat) : List Nat :=
  let lhs_sz := lhs.length
  let b := bits lhs
  let l1 := if lhs_sz = 0 then lhs ++ [0] else lhs
  let l2 := lhs.map (fun d => d ^^^ (dB - 1)) ++ l1.drop lhs_sz
  trim (if b ≠ 0 then b else 1) l2

/-! ## Radix 256 input / output (uint_t.hh, strtouint / str) -/

/-- One digit from eight little-endian bytes. -/
def bytesToDigit (chunk : List Nat) : Nat :=
  chunk.foldr (fun b acc => b + acc * 256) 0

/-- Group a little-endian byte buffer into 64-bit digits, eight bytes each.
`strtouint` always passes a buffer whose length is a multiple of eight, so
the short-tail arm is never taken there. -/
def groups8 : List Nat → List Nat
  | b0 :: b1 :: b2 :: b3 :: b4 :: b5 :: b6 :: b7 :: rest =>
      bytesToDigit [b0, b1, b2, b3, b4, b5, b6, b7] :: groups8 rest
  | [] => []
  | short => [bytesToDigit short]

/-- The `alphabet_base == 256` branch of `uint_t::strtouint` (lines
2174-2185): size the digit vector to `ceil(size / 8)` words, place the
big-endian input at the end of the zeroed byte buffer, reverse the whole
buffer into little-endian order.  No trim.  An empty buffer falls through
to the `throw` (`Except.error`). -/
def strtouint256 (bytes : List Nat) : Except Unit (List Nat) :=
  if bytes.length ≠ 0 then
    let value_padding := bytes.length % 8
    let vp := if value_padding ≠ 0 then 8 - value_padding else 0
    .ok (groups8 ((List.replicate vp 0 ++ bytes).reverse))
  else .error ()

/-- One digit to eight little-endian bytes. -/
def digitBytes (d : Nat) : List Nat :=
  [d % 256, d / 2 ^ 8 % 256, d / 2 ^ 16 % 256, d / 2 ^ 24 % 256,
   d / 2 ^ 32 % 256, d / 2 ^ 40 % 256, d / 2 ^ 48 % 256, d / 2 ^ 56 % 256]

/-- The `alphabet_base == 256` branch of `uint_t::str` (lines 2134-2146):
reinterpret the digit vector as little-endian bytes, strip trailing zero
bytes, reverse into big-endian order; the zero value prints as one NUL
byte. -/
def str256 (l : List Nat) : List Nat :=
  if l.length ≠ 0 then (stripZeros ((l.map digitBytes).flatten)).reverse
  else [0]

/-- The canonical digit vector of a natural number (no high zero digit;
`0` is the empty vector), on fuel `v + 1`, which a strictly decreasing
quotient never exhausts.  The `uinteger_t` a `BaseX::decode` builds goes
through operations that all end in `trim`, so its digit vector is exactly
this canonical vector of its value; `str256` composed with it embeds the
`num.str(256)` call of the byte-output `decode`. -/
def natDigitsAux : Nat → Nat → List Nat
  | 0, _ => []
  | fuel + 1, v => if v = 0 then [] else v % dB :: natDigitsAux fuel (v / dB)

/-- Canonical digit vector of a value. -/
def natDigits (v : Nat) : List Nat := natDigitsAux (v + 1) v

/-- `num.str(256)` of a decoded value. -/
def str256N (v : Nat) : List Nat := str256 (natDigits v)

end uint_t

/-! ## The BaseX codec (base_x.hh) -/

open uint_t in
/-- The immutable state a constructed `BaseX` carries: the `_chr` and
`_ord` tables (256 entries each, as byte values), and the derived scalar
fields.  `base_size` is only used to reserve output capacity and is not
modelled. -/
structure BaseXCfg where
  chrT : List Nat
  ordT : List Nat
  base : Nat
  base_bits : Nat
  block_size : Nat
  base_mask : Nat
deriving DecidableEq

/-- `_chr[i]` (`BaseX::chr`). -/
def BaseXCfg.chrOf (cfg : BaseXCfg) (i : Nat) : Nat := cfg.chrT.getD i 0

/-- `_ord[c]` (`BaseX::ord`). -/
def BaseXCfg.ordOf (cfg : BaseXCfg) (c : Nat) : Nat := cfg.ordT.getD c 0xff

/-- `uint_t::base_bits(base)`: the 256-entry table holding `log2 base` at
the power-of-two bases and `0` everywhere else, written as the equivalent
case split. -/
def baseBitsTable (b : Nat) : Nat :=
  if b = 2 then 1 else if b = 4 then 2 else if b = 8 then 3
  else if b = 16 then 4 else if b = 32 then 5 else if b = 64 then 6
  else if b = 128 then 7 else if b = 256 then 8 else 0

/-- The `BaseX` constructor (base_x.hh lines 56-86).  `alphabet` and
`ignored` are the character arrays without their terminators, so
`base = alphabet.length`.  The tables start as `_chr = 0`, `_ord = 0xff`;
each ignored character is mapped to `0`; then the alphabet loop walks the
indices downward, setting `_chr[i] = ch`, `_ord[ch] = i`, and under
`IGNORE_CASE` also the opposite-case entry.  It validates nothing and
cannot fail. -/
def BaseX.make (alphabet ignored : List Nat) (flags : Nat) : BaseXCfg :=
  let base := alphabet.length
  let ord0 := (List.replicate 256 0xff).map id
  let chr0 := List.replicate 256 0
  let ordIg := ignored.reverse.foldl (fun o ch => o.set ch 0) ord0
  let step := fun (p : List Nat × List Nat) (i : Nat) =>
    let ch := alphabet.getD i 0
    let chr1 := p.1.set i ch
    let ord1 := p.2.set ch i
    let ord2 :=
      if flags &&& 1 ≠ 0 then
        if 65 ≤ ch ∧ ch ≤ 90 then ord1.set (ch - 65 + 97) i
        else if 97 ≤ ch ∧ ch ≤ 122 then ord1.set (ch - 97 + 65) i
        else ord1
      else ord1
    (chr1, ord2)
  let pr := (List.range base).reverse.foldl step (chr0, ordIg)
  { chrT := pr.1
    ordT := pr.2
    base := base
    base_bits := baseBitsTable base
    block_size := if flags &&& 2 ≠ 0 then baseBitsTable base else 0
    base_mask := base - 1 }

namespace BaseX

open uint_t

/-- The encode pre-shift as the source computes it (base_x.hh lines
97-100): `bp = ((num.bits() + 7) & 0xf8) % block_size`, then
`bp = bp ? block_size - bp : 0`.  The mask `0xf8` keeps only bits 3-7
of `bits + 7`. -/
def bpOf (bitsN block_size : Nat) : Nat :=
  let bp := ((bitsN + 7) &&& 0xf8) % block_size
  if bp ≠ 0 then block_size - bp else 0

/-- The pre-shift as the *spec* words it (spec section 4.8, for comparison
with `bpOf`): `block_size - (((bits(n) + 7) & ~7) mod block_size)` when the
inner expression is non-zero, else 0; `& ~7` clears the low three bits. -/
def bpSpec (bitsN block_size : Nat) : Nat :=
  let bp := ((bitsN + 7) / 8 * 8) % block_size
  if bp ≠ 0 then block_size - bp else 0

/-- The digit vector as half digits: each digit splits into its low and
high 32-bit halves, low first (the `reinterpret_cast` on a little-endian
machine). -/
def toHalfs (l : List Nat) : List Nat :=
  (l.map (fun d => [d % 2 ^ 32, d / 2 ^ 32 % 2 ^ 32])).flatten

/-- Pad-or-truncate to exactly `n` entries: the encode loop reads exactly
`num.size() * 2` half digits from `quotient`, whatever `quotient` now
holds. -/
def padTo (n : Nat) (l : List Nat) : List Nat :=
  (l ++ List.replicate (n - l.length) 0).take n

/-- The inner do-while of the power-of-two encode loop: emit
`(v >> shift) & base_mask`, advance `shift` by `base_bits`, repeat while
`shift <= 32`; returns the emitted digits and the final shift.  The fuel
`33` covers every run since `base_bits >= 1` there. -/
def emitFrom (bb mask : Nat) : Nat → Nat → Nat → List Nat × Nat
  | 0, _, shift => ([], shift)
  | fuel + 1, v, shift =>
      let d := (v >>> shift) &&& mask
      let s1 := shift + bb
      if s1 ≤ 32 then
        let rest := emitFrom bb mask fuel v s1
        (d :: rest.1, rest.2)
      else ([d], s1)

/-- The outer half-digit window loop of the power-of-two encode (base_x.hh
lines 107-117): slide the next half digit into the top of the 64-bit
window, run the do-while, carry `shift - 32` into the next round.  Returns
the emitted digits and the final window and shift. -/
def windowLoop (bb mask : Nat) : List Nat → Nat → Nat → List Nat × Nat × Nat
  | [], v, shift => ([], v, shift)
  | h :: rest, v, shift =>
      let v1 := (v >>> 32) ||| ((h <<< 32) % dB)
      let e := emitFrom bb mask 33 v1 shift
      let r := windowLoop bb mask rest v1 (e.2 - 32)
      (e.1 ++ r.1, r.2)

/-- The flush loop after the last half digit (lines 118-124): emit
`base_bits` at a time while the residue is non-zero.  Fuel `v + 1` cannot
run out because the residue at least halves each round. -/
def flushLoop (bb mask : Nat) : Nat → Nat → List Nat
  | 0, _ => []
  | fuel + 1, v =>
      if v = 0 then [] else (v &&& mask) :: flushLoop bb mask fuel (v >>> bb)

/-- The whole power-of-two digit extraction of `BaseX::encode` (and of
`uint_t::str` for bases 2-36): prime the window with the first half digit
shifted high, loop over the remaining `2 * size - 1` half digits, then
flush `v >> (shift + 32)`. -/
def pow2Emit (bb mask : Nat) (halfs : List Nat) : List Nat :=
  match halfs with
  | [] => []
  | h0 :: rest =>
      let v0 := (h0 <<< 32) % dB
      let wl := windowLoop bb mask rest v0 0
      let v2 := wl.2.1 >>> (wl.2.2 + 32)
      wl.1 ++ flushLoop bb mask (v2 + 1) v2

/-- The general-base do-while of `BaseX::encode` (lines 129-136): divide
by the base, push the remainder digit (`static_cast<int>` of a `uint_t`
reads its first digit or 0), repeat while the quotient is non-zero.  Fuel
`valList quotient + 1` never runs out since the quotient value strictly
decreases (base >= 2). -/
def encodeDivLoop (cfg : BaseXCfg) : Nat → List Nat → List Nat
  | 0, _ => []
  | fuel + 1, q =>
      match divmod q [cfg.base] with
      | .error _ => []
      | .ok (q1, r) =>
          let d := r.headD 0
          d :: (if q1.length ≠ 0 then encodeDivLoop cfg fuel q1 else [])

/-- Drop the trailing run of entries equal to `a` (the `find_if` shrink
over `result`'s reverse iterators). -/
def dropTrailEq (a : Nat) (l : List Nat) : List Nat :=
  (l.reverse.dropWhile (fun c => c == a)).reverse

/-- `BaseX::encode` of a `uinteger_t` (base_x.hh lines 90-148), producing
the byte string as a list.  The digit vector `num` is read as the C++
object holds it (its `size()` drives the loops). -/
def encodeNum (cfg : BaseXCfg) (num : List Nat) (checksum : Bool) : List Nat :=
  let num_sz := num.length
  if num_sz ≠ 0 then
    let bp := if cfg.block_size ≠ 0 then bpOf (bits num) cfg.block_size else 0
    let quotient := lshift num bp
    let emitted :=
      if cfg.base_bits ≠ 0 then
        pow2Emit cfg.base_bits cfg.base_mask (padTo (2 * num_sz) (toHalfs quotient))
      else
        encodeDivLoop cfg (valList quotient + 1) quotient
    let chars := emitted.map cfg.chrOf
    let chars1 := if cfg.base_bits ≠ 0 then dropTrailEq (cfg.chrOf 0) chars else chars
    let result := chars1.reverse
    if checksum then
      let sum := emitted.foldl (fun s d => s ^^^ d) 0
      let sz := result.length
      let sum1 := sum ^^^ (sz / cfg.base % cfg.base) ^^^ (sz % cfg.base)
      result ++ [cfg.chrOf sum1]
    else result
  else [cfg.chrOf 0]

/-- Decode errors: `InvalidChar` (`std::invalid_argument` on a bad
character) and `BadChecksum`. -/
inductive DecErr where
  | invalidChar : DecErr
  | badChecksum : DecErr
deriving DecidableEq

/-- The per-character loop of `BaseX::decode` (lines 206-225), threading
the accumulator and the checksum sum.  In the power-of-two branch the sum
is updated before the validity test, in the general branch after it, as in
the source. -/
def decodeGo (cfg : BaseXCfg) (pow2 : Bool) : Nat → Nat → List Nat → Except DecErr (Nat × Nat)
  | acc, sum, [] => .ok (acc, sum)
  | acc, sum, c :: rest =>
      let d := cfg.ordOf c
      if pow2 then
        let sum1 := sum ^^^ d
        if d ≥ cfg.base then .error .invalidChar
        else decodeGo cfg pow2 ((acc <<< cfg.base_bits) ||| d) sum1 rest
      else
        if d ≥ cfg.base then .error .invalidChar
        else decodeGo cfg pow2 (acc * cfg.base + d) (sum ^^^ d) rest

/-- `BaseX::decode` into a `uinteger_t` value (base_x.hh lines 193-239).
With the checksum option the final character is folded in afterwards and
the length terms use the payload length.  Calling it with the checksum
option on an empty string makes the C++ read out of bounds (undefined);
that case maps to an error here and no claim reaches it. -/
def decode (cfg : BaseXCfg) (encoded : List Nat) (checksum : Bool) : Except DecErr Nat :=
  if checksum ∧ encoded.length = 0 then .error .invalidChar
  else
    let sum0 :=
      if checksum then
        let sz := encoded.length - 1
        ((sz / cfg.base) % cfg.base) ^^^ (sz % cfg.base)
      else 0
    let payload := if checksum then encoded.dropLast else encoded
    let bp := if cfg.block_size ≠ 0 then (payload.length * cfg.block_size) % 8 else 0
    match decodeGo cfg (cfg.base_bits != 0) 0 sum0 payload with
    | .error e => .error e
    | .ok (acc, sum) =>
        let res := acc >>> bp
        if checksum then
          let d := cfg.ordOf (encoded.getLastD 0)
          if d ≥ cfg.base then .error .invalidChar
          else if sum ^^^ d ≠ 0 then .error .badChecksum
          else .ok res
        else .ok res

/-- The character loop of `BaseX::is_valid`, over the whole string
(checksum character included): fail on any `ord >= base`, XOR the digit
values into the sum. -/
def isValidGo (cfg : BaseXCfg) : Nat → List Nat → Bool × Nat
  | sum, [] => (true, sum)
  | sum, c :: rest =>
      let d := cfg.ordOf c
      if d ≥ cfg.base then (false, sum)
      else isValidGo cfg (sum ^^^ d) rest

/-- `BaseX::is_valid` (base_x.hh lines 279-297).  The checksum length term
uses `encoded_size - 1` as a `size_t`, which wraps on the empty string;
the wrap is modelled exactly. -/
def is_valid (cfg : BaseXCfg) (encoded : List Nat) (checksum : Bool) : Bool :=
  let sum0 :=
    if checksum then
      let sz := (encoded.length + (dB - 1)) % dB
      ((sz / cfg.base) % cfg.base) ^^^ (sz % cfg.base)
    else 0
  let r := isValidGo cfg sum0 encoded
  if !r.1 then false
  else if checksum ∧ r.2 ≠ 0 then false
  else true

/-- `BaseX::encode` of a byte buffer: parse the bytes as a base-256
`uinteger_t` (which throws on the empty buffer), then encode. -/
def encodeBytes (cfg : BaseXCfg) (s : List Nat) (checksum : Bool) : Except Unit (List Nat) :=
  match strtouint256 s with
  | .error e => .error e
  | .ok num => .ok (encodeNum cfg num checksum)

/-- The byte-output `BaseX::decode`: decode to a `uinteger_t`, then
serialize it back through `str(256)`. -/
def decodeBytes (cfg : BaseXCfg) (chars : List Nat) (checksum : Bool) : Except DecErr (List Nat) :=
  match decode cfg chars checksum with
  | .error e => .error e
  | .ok v => .ok (str256N v)

end BaseX

/-- Build a codec from alphabet and ignored strings, as the bundled
factories do. -/
def mkCodec (alphabet ignored : String) (flags : Nat) : BaseXCfg :=
  BaseX.make (alphabet.toList.map Char.toNat) (ignored.toList.map Char.toNat) flags

/-! The bundled codecs (base_x.hh lines 309-457).  `IGNORE_CASE = 1`,
`BLOCK_PADDING = 2`. -/

/-- base2::base2 -/
def base2C : BaseXCfg := mkCodec "01" "" 0

/-- base8::base8 -/
def base8C : BaseXCfg := mkCodec "01234567" "" 0

/-- base11::base11 -/
def base11C : BaseXCfg := mkCodec "0123456789a" "" 1

/-- base16::base16 -/
def base16C : BaseXCfg := mkCodec "0123456789abcdef" "" 1

/-- base16::rfc4648 -/
def base16rfc : BaseXCfg := mkCodec "0123456789ABCDEF" "= \n\r\t" 1

/-- base32::base32 -/
def base32C : BaseXCfg := mkCodec "ABCDEFGHIJKLMNOPQRSTUVWXYZ234567" "" 1

/-- base32::hex -/
def base32hexC : BaseXCfg := mkCodec "0123456789ABCDEFGHIJKLMNOPQRSTUV" "" 1

/-- base32::rfc4648 -/
def base32rfc : BaseXCfg := mkCodec "ABCDEFGHIJKLMNOPQRSTUVWXYZ234567" "= \n\r\t" 3

/-- base32::rfc4648hex -/
def base32rfchexC : BaseXCfg := mkCodec "0123456789ABCDEFGHIJKLMNOPQRSTUV" "= \n\r\t" 3

/-- base32::crockford -/
def base32crockfordC : BaseXCfg := mkCodec "0123456789ABCDEFGHJKMNPQRSTVWXYZ" "" 1

/-- base36::base36 -/
def base36C : BaseXCfg := mkCodec "0123456789abcdefghijklmnopqrstuvwxyz" "" 1

/-- base58::gmp -/
def base58gmpC : BaseXCfg :=
  mkCodec "0123456789ABCDEFGHIJKLMNOPQRSTUVWXYZabcdefghijklmnopqrstuv" "" 0

/-- base58::bitcoin (also base58::base58) -/
def base58bitcoinC : BaseXCfg :=
  mkCodec "123456789ABCDEFGHJKLMNPQRSTUVWXYZabcdefghijkmnopqrstuvwxyz" "" 0

/-- base58::ripple -/
def base58rippleC : BaseXCfg :=
  mkCodec "rpshnaf39wBUDNEGHJKLM4PQRST7VWXYZ2bcdeCg65jkm8oFqi1tuvAxyz" "" 0

/-- base58::flickr -/
def base58flickrC : BaseXCfg :=
  mkCodec "123456789abcdefghijkmnopqrstuvwxyzABCDEFGHJKLMNPQRSTUVWXYZ" "" 0

/-- base62::base62 -/
def base62C : BaseXCfg :=
  mkCodec "0123456789ABCDEFGHIJKLMNOPQRSTUVWXYZabcdefghijklmnopqrstuvwxyz" "" 0

/-- base62::inverted -/
def base62invertedC : BaseXCfg :=
  mkCodec "0123456789abcdefghijklmnopqrstuvwxyzABCDEFGHIJKLMNOPQRSTUVWXYZ" "" 0

/-- base64::base64 -/
def base64C : BaseXCfg :=
  mkCodec "ABCDEFGHIJKLMNOPQRSTUVWXYZabcdefghijklmnopqrstuvwxyz0123456789+/" "" 0

/-- base64::url -/
def base64urlC : BaseXCfg :=
  mkCodec "ABCDEFGHIJKLMNOPQRSTUVWXYZabcdefghijklmnopqrstuvwxyz0123456789-_" "" 0

/-- base64::rfc4648 -/
def base64rfc : BaseXCfg :=
  mkCodec "ABCDEFGHIJKLMNOPQRSTUVWXYZabcdefghijklmnopqrstuvwxyz0123456789+/" "= \n\r\t" 2

/-- base64::rfc4648url -/
def base64rfcurlC : BaseXCfg :=
  mkCodec "ABCDEFGHIJKLMNOPQRSTUVWXYZabcdefghijklmnopqrstuvwxyz0123456789-_" "= \n\r\t" 2

/-- base66::base66 -/
def base66C : BaseXCfg :=
  mkCodec "ABCDEFGHIJKLMNOPQRSTUVWXYZabcdefghijklmnopqrstuvwxyz0123456789-_.!~" "" 0

/-- Bytes of a string literal, for concrete test vectors. -/
def strBytes (s : String) : List Nat := s.toList.map Char.toNat

/-! Sanity: the embedding reproduces the repository's own test vectors. -/

example : BaseX.encodeBytes base58bitcoinC (strBytes "Hello world!") false =
    .ok (strBytes "2NEpo7TZRhna7vSvL") := by decide

example : BaseX.encodeNum base58gmpC [987654321] false = strBytes "1TFvCj" := by decide

example : BaseX.encodeNum base62C [987654321] false = strBytes "14q60P" := by decide

example : BaseX.decodeBytes base58bitcoinC (strBytes "2NEpo7TZRhna7vSvL") false =
    .ok (strBytes "Hello world!") := by decide

/-! ## Claim C1: the division identity, and where Knuth Algorithm D breaks it -/

set_option maxRecDepth 4000 in
/-- C1: the claim that `divmod(a, b)` always returns `(q, r)` with
`q * b + r = a` and `r < b` is FALSE on the code.  At
`a = 2^192 + 2^65 - 3` (digits `[2^64-3, 1, 0, 1]`) and
`b = 2^191 + 2^64 - 1` (digits `[2^64-1, 0, 2^63]`) the Knuth-D path
estimates the quotient digit as 2 where the true digit is 1; the
multiply-subtract step then drops the top product digit (`knuth_divmod`
subtracts `0`, not the final `mulhi`, from `v[k+n]`), so the borrow that
should trigger the D6 add-back never surfaces.  The code returns
`(2, 2^192 - 1)`: the division identity fails and the remainder exceeds
the divisor.  The true answer is `(1, 2^191 + 2^64 - 2)`. -/
theorem C1_knuth_divmod_failing_eval :
    uint_t.divmod [2 ^ 64 - 3, 1, 0, 1] [2 ^ 64 - 1, 0, 2 ^ 63] =
        .ok ([2], [2 ^ 64 - 1, 2 ^ 64 - 1, 2 ^ 64 - 1]) ∧
      uint_t.valList [2] * uint_t.valList [2 ^ 64 - 1, 0, 2 ^ 63] +
          uint_t.valList [2 ^ 64 - 1, 2 ^ 64 - 1, 2 ^ 64 - 1] ≠
        uint_t.valList [2 ^ 64 - 3, 1, 0, 1] ∧
      ¬ uint_t.valList [2 ^ 64 - 1, 2 ^ 64 - 1, 2 ^ 64 - 1] <
          uint_t.valList [2 ^ 64 - 1, 0, 2 ^ 63] ∧
      uint_t.valList [2 ^ 64 - 3, 1, 0, 1] / uint_t.valList [2 ^ 64 - 1, 0, 2 ^ 63] = 1 := by
  refine ⟨by decide, by decide, by decide, by decide⟩

/-! ## Claim C4: the block-padding pre-shift and the 0xf8 mask -/

set_option maxRecDepth 4000 in
/-- C4: the claim that encode pre-shifts by
`block_size - (((bits(n) + 7) & ~7) mod block_size)` is FALSE on the code
once `bits(n) >= 249`: the source masks with `0xf8`, an eight-bit-wide
`~7`, so `(bits + 7) & 0xf8` silently drops every bit above the seventh.
For the two formulas: they agree on every bit length up to 248, and at
`bits = 249` (with `block_size = 5`, the `base32::rfc4648` codec) the code
computes a pre-shift of 0 where the spec formula gives 4. -/
theorem C4_preshift_failing_eval :
    base32rfc.block_size = 5 ∧
      BaseX.bpOf 249 5 = 0 ∧
      BaseX.bpSpec 249 5 = 4 ∧
      (∀ b : Nat, b < 249 → BaseX.bpOf b 5 = BaseX.bpSpec b 5) := by
  refine ⟨by decide, by decide, by decide, by decide⟩

/-! ## Claim C9: the muladd_wide contract and the half-digit fallback -/

/-- C9: the claim that every `_multadd` branch returns `(hi, lo)` with
`hi * 2^64 + lo = x*y + a + c` and no intermediate overflow is FALSE for
the manually split half-digit fallback: at `x = y = a = c = 2^64 - 1` its
second intermediate line `v = x1*y0 + (u >> 32) + (a >> 32) + (c >> 32)`
reaches `2^64 + 2^32 - 2` and wraps, losing `2^32` from the returned high
word.  The `__int128` branch returns the correct pair `(2^64 - 1,
2^64 - 1)`; the fallback returns `(2^64 - 2^32 - 1, 2^64 - 1)`. -/
theorem C9_multadd_fallback_failing_eval :
    uint_t._multadd_fallback (2 ^ 64 - 1) (2 ^ 64 - 1) (2 ^ 64 - 1) (2 ^ 64 - 1) =
        (2 ^ 64 - 2 ^ 32 - 1, 2 ^ 64 - 1) ∧
      (2 ^ 64 - 2 ^ 32 - 1) * 2 ^ 64 + (2 ^ 64 - 1) ≠
        (2 ^ 64 - 1) * (2 ^ 64 - 1) + (2 ^ 64 - 1) + (2 ^ 64 - 1) ∧
      uint_t._multadd (2 ^ 64 - 1) (2 ^ 64 - 1) (2 ^ 64 - 1) (2 ^ 64 - 1) =
        (2 ^ 64 - 1, 2 ^ 64 - 1) := by
  refine ⟨by decide, by decide, by decide⟩

/-! ## Claim C8: bitwise NOT of zero -/

/-- Counterexample to C8: `operator~` (the copying `bitwise_inv`) applied
to the value 0 returns the value 1, not 0: the result is sized to one
digit, the fill loop sets that digit to `~0`, and `trim(1)` masks it down
to the single bit 1. -/
theorem C8_not_counterexample :
    uint_t.opNot [] = [1] ∧ uint_t.valList (uint_t.opNot []) ≠ 0 := by
  refine ⟨by decide, by decide⟩

/-- C8 as amended: `operator~` of 0 returns 1, while the in-place
`bitwise_inv` (reached through `inv()`) of 0 returns 0 - there the
inversion loop runs zero times, so the appended zero digit survives and
is trimmed away. -/
theorem C8_not_amended :
    uint_t.valList (uint_t.opNot []) = 1 ∧
      uint_t.bitwise_inv_inplace [] = [] := by
  refine ⟨by decide, by decide⟩

/-! ## Claim C7: BaseX construction never rejects anything -/

/-- Counterexample to C7: the constructor is a `constexpr` table fill with
no validation and no failure path.  Fed the duplicate alphabet "00" it
happily produces a codec object with `base = 2` whose tables are fully
populated - no rejection occurs.  (48 is the byte value of the character
zero; the list `[48, 48]` has a duplicate.) -/
theorem C7_construction_counterexample :
    ¬ ([48, 48] : List Nat).Nodup ∧
      (BaseX.make [48, 48] [] 0).base = 2 ∧
      (BaseX.make [48, 48] [] 0).ordOf 48 = 0 ∧
      (BaseX.make [48, 48] [] 0).chrOf 0 = 48 ∧
      (BaseX.make [48, 48] [] 0).chrOf 1 = 48 := by
  refine ⟨by decide, by decide, by decide, by decide, by decide⟩

/-- C7 as amended: construction never fails; every alphabet/ignored/flags
triple (duplicates and overlaps included) produces a codec whose base is
the alphabet length.  For duplicated characters the descending constructor
loop leaves `ord` at the smallest index, and alphabet entries overwrite
ignored entries. -/
theorem C7_construction_amended (alphabet ignored : List Nat) (flags : Nat) :
    (BaseX.make alphabet ignored flags).base = alphabet.length := by
  rfl

/-! ## Claim C10: decoding the empty string -/

/-- C10: for every codec, decoding the empty string without the checksum
option succeeds and yields the value 0, while encode of 0 (the empty digit
vector) emits the single character `chr[0]`. -/
theorem C10_decode_empty (cfg : BaseXCfg) :
    BaseX.decode cfg [] false = .ok 0 ∧
      BaseX.encodeNum cfg [] false = [cfg.chrOf 0] := by
  constructor
  · simp [BaseX.decode, BaseX.decodeGo]
  · simp [BaseX.encodeNum]

/-! ## Claim C5: canonical form, and the untrimmed base-256 parse -/

/-- Counterexample to C5: the base-256 branch of `strtouint` never trims.
Parsing the single zero byte yields the one-digit vector `[0]` - a
non-canonical zero whose most-significant digit is 0 - and parsing nine
bytes `00 .. 00 01` yields `[1, 0]` with a zero most-significant digit. -/
theorem C5_canonical_counterexample :
    uint_t.strtouint256 [0] = .ok [0] ∧
      uint_t.canonicalB [0] = false ∧
      uint_t.strtouint256 [0, 0, 0, 0, 0, 0, 0, 0, 1] = .ok [1, 0] ∧
      uint_t.canonicalB [1, 0] = false := by
  refine ⟨by decide, by decide, by decide, by decide⟩


/-- The head of a `dropWhile (== 0)` run is never zero. -/
theorem head_dropWhileZero_ne {m : List Nat} {d : Nat}
    (h : (m.dropWhile (fun x => x == 0)).head? = some d) : d ≠ 0 := by
  induction m with
  | nil => simp at h
  | cons a t ih =>
      by_cases ha : a = 0
      · subst ha
        rw [List.dropWhile_cons_of_pos (by simp)] at h
        exact ih h
      · rw [List.dropWhile_cons_of_neg (by simpa using ha)] at h
        simp at h
        omega

/-- `stripZeros` always returns a canonical vector. -/
theorem canonicalB_stripZeros (l : List Nat) :
    uint_t.canonicalB (uint_t.stripZeros l) = true := by
  unfold uint_t.canonicalB uint_t.stripZeros
  rw [List.getLast?_reverse]
  cases h : (l.reverse.dropWhile (fun d => d == 0)).head? with
  | none => simp
  | some d => simpa using head_dropWhileZero_ne h

/-- `trim` always returns a canonical vector, whatever the mask. -/
theorem canonicalB_trim (mask : Nat) (l : List Nat) :
    uint_t.canonicalB (uint_t.trim mask l) = true := by
  unfold uint_t.trim
  exact canonicalB_stripZeros _

/-- `groups8` of a buffer of `8 * n` bytes yields `n` digits. -/
theorem groups8_length (n : Nat) :
    ∀ l : List Nat, l.length = 8 * n → (uint_t.groups8 l).length = n := by
  induction n with
  | zero =>
      intro l hl
      have : l = [] := List.eq_nil_of_length_eq_zero (by omega)
      subst this
      simp [uint_t.groups8]
  | succ n ih =>
      intro l hl
      match l, hl with
      | b0 :: b1 :: b2 :: b3 :: b4 :: b5 :: b6 :: b7 :: rest, hl =>
          rw [uint_t.groups8]
          have : rest.length = 8 * n := by simp at hl; omega
          simp [ih rest this]

/-- C5 as amended: the operations that end in `trim` do return canonical
vectors (`trim` guarantees it for any input and mask), but the base-256
branch of `strtouint` does not trim: it returns exactly `ceil(size / 8)`
digits whatever the bytes are, so leading zero bytes can leave a zero
most-significant digit. -/
theorem C5_canonical_amended :
    (∀ mask l, uint_t.canonicalB (uint_t.trim mask l) = true) ∧
      ∀ bytes digits, uint_t.strtouint256 bytes = .ok digits →
        digits.length = (bytes.length + 7) / 8 := by
  refine ⟨canonicalB_trim, ?_⟩
  intro bytes digits h
  unfold uint_t.strtouint256 at h
  by_cases hb : bytes.length ≠ 0
  · simp only [if_pos hb, Except.ok.injEq] at h
    subst h
    apply groups8_length ((bytes.length + 7) / 8)
    simp only [List.length_reverse, List.length_append, List.length_replicate]
    by_cases h8 : bytes.length % 8 = 0
    · rw [if_neg (by omega)]
      omega
    · rw [if_pos h8]
      omega
  · simp only [ne_eq, not_not] at hb
    rw [if_neg (by omega)] at h
    exact absurd h (by simp)

/-- Witness for `C5_canonical_amended` at concrete inputs: `trim 0 [5, 0]`
is canonical, and parsing one byte yields one digit. -/
theorem C5_canonical_amended_witness :
    uint_t.canonicalB (uint_t.trim 0 [5, 0]) = true ∧
      ([0] : List Nat).length = (([0] : List Nat).length + 7) / 8 :=
  ⟨C5_canonical_amended.1 0 [5, 0], C5_canonical_amended.2 [0] [0] (by decide)⟩

/-! ## Claim C3: ignored characters during decode -/

/-- Counterexample to C3: in the `base16::rfc4648` codec the character
`=` (byte 61) is in the ignored set, yet decoding does not skip it -
the constructor maps ignored characters to `ord = 0`, which passes the
`d >= base` test and is accumulated as the digit 0.  Decoding "1=" yields
16 where decoding "1" yields 1, so inserting an ignored character between
payload digits changes the decoded value. -/
theorem C3_ignored_counterexample :
    base16rfc.ordOf 61 = 0 ∧
      BaseX.decode base16rfc [49, 61] false = .ok 16 ∧
      BaseX.decode base16rfc [49] false = .ok 1 := by
  refine ⟨by decide, by decide, by decide⟩

/-- C3 as amended: a character of the ignored set (`ord c = 0`) is
tolerated by decode - it never raises InvalidChar while the base is
positive - but it is not skipped: the decode loop treats it exactly as
the digit 0, shifting the accumulator by `base_bits` (power-of-two bases)
or multiplying it by the base (general bases). -/
theorem C3_ignored_amended (cfg : BaseXCfg) (c acc sum : Nat) (rest : List Nat)
    (hc : cfg.ordOf c = 0) (hbase : 0 < cfg.base) :
    BaseX.decodeGo cfg true acc sum (c :: rest) =
        BaseX.decodeGo cfg true (acc <<< cfg.base_bits) sum rest ∧
      BaseX.decodeGo cfg false acc sum (c :: rest) =
        BaseX.decodeGo cfg false (acc * cfg.base) sum rest := by
  constructor
  · rw [show BaseX.decodeGo cfg true acc sum (c :: rest) =
        (let d := cfg.ordOf c
         let sum1 := sum ^^^ d
         if d ≥ cfg.base then .error .invalidChar
         else BaseX.decodeGo cfg true ((acc <<< cfg.base_bits) ||| d) sum1 rest) from rfl]
    rw [hc]
    rw [if_neg (by omega)]
    simp
  · rw [show BaseX.decodeGo cfg false acc sum (c :: rest) =
        (let d := cfg.ordOf c
         if d ≥ cfg.base then .error .invalidChar
         else BaseX.decodeGo cfg false (acc * cfg.base + d) (sum ^^^ d) rest) from rfl]
    rw [hc]
    rw [if_neg (by omega)]
    simp

/-- Witness for `C3_ignored_amended`: the ignored `=` of
`base16::rfc4648`, with accumulator 1. -/
theorem C3_ignored_amended_witness :
    BaseX.decodeGo base16rfc true 1 0 [61] =
        BaseX.decodeGo base16rfc true (1 <<< base16rfc.base_bits) 0 [] ∧
      BaseX.decodeGo base16rfc false 1 0 [61] =
        BaseX.decodeGo base16rfc false (1 * base16rfc.base) 0 [] :=
  C3_ignored_amended base16rfc 61 1 0 [] (by decide) (by decide)

/-! ## Claim C6: checksum tamper detection -/

/-- XOR of the digit values of a character list. -/
def xorOrds (cfg : BaseXCfg) (l : List Nat) : Nat :=
  l.foldr (fun c s => cfg.ordOf c ^^^ s) 0

theorem xor_left_comm (a b c : Nat) : a ^^^ (b ^^^ c) = b ^^^ (a ^^^ c) := by
  rw [← Nat.xor_assoc, Nat.xor_comm a b, Nat.xor_assoc]

/-- When every character is a valid digit, the `is_valid` loop accepts and
its sum is the seed XORed with all the digit values. -/
theorem isValidGo_all (cfg : BaseXCfg) :
    ∀ (l : List Nat) (sum : Nat), (∀ c ∈ l, cfg.ordOf c < cfg.base) →
      BaseX.isValidGo cfg sum l = (true, sum ^^^ xorOrds cfg l) := by
  intro l
  induction l with
  | nil => intro sum _; simp [BaseX.isValidGo, xorOrds]
  | cons a t ih =>
      intro sum h
      have ha : cfg.ordOf a < cfg.base := h a (by simp)
      rw [show BaseX.isValidGo cfg sum (a :: t) =
          (let d := cfg.ordOf a
           if d ≥ cfg.base then (false, sum)
           else BaseX.isValidGo cfg (sum ^^^ d) t) from rfl]
      rw [if_neg (by omega)]
      rw [ih (sum ^^^ cfg.ordOf a) (fun c hc => h c (by simp [hc]))]
      show _ = (true, sum ^^^ (cfg.ordOf a ^^^ xorOrds cfg t))
      rw [Nat.xor_assoc]

/-- When some character is invalid, the `is_valid` loop rejects. -/
theorem isValidGo_bad (cfg : BaseXCfg) :
    ∀ (l : List Nat) (sum : Nat), (∃ c ∈ l, ¬ cfg.ordOf c < cfg.base) →
      (BaseX.isValidGo cfg sum l).1 = false := by
  intro l
  induction l with
  | nil => intro sum h; simp at h
  | cons a t ih =>
      intro sum h
      rw [show BaseX.isValidGo cfg sum (a :: t) =
          (let d := cfg.ordOf a
           if d ≥ cfg.base then (false, sum)
           else BaseX.isValidGo cfg (sum ^^^ d) t) from rfl]
      by_cases ha : cfg.ordOf a ≥ cfg.base
      · rw [if_pos ha]
      · rw [if_neg ha]
        apply ih
        obtain ⟨c, hc, hbad⟩ := h
        rcases List.mem_cons.mp hc with hc1 | hc1
        · subst hc1
          exact absurd (by omega : cfg.ordOf c < cfg.base) hbad
        · exact ⟨c, hc1, hbad⟩

/-- The checksum seed of `is_valid`: the two length terms XORed, with the
`size_t` wrap of `length - 1` explicit. -/
def lenTerm (cfg : BaseXCfg) (n : Nat) : Nat :=
  let sz := (n + (uint_t.dB - 1)) % uint_t.dB
  ((sz / cfg.base) % cfg.base) ^^^ (sz % cfg.base)

/-- `is_valid` with the checksum option accepts exactly the strings whose
characters are all valid digits and whose digit values XOR (together with
the two length terms) to zero. -/
theorem is_valid_checksum_iff (cfg : BaseXCfg) (l : List Nat) :
    BaseX.is_valid cfg l true = true ↔
      (∀ c ∈ l, cfg.ordOf c < cfg.base) ∧ lenTerm cfg l.length ^^^ xorOrds cfg l = 0 := by
  rw [show BaseX.is_valid cfg l true =
      (if !(BaseX.isValidGo cfg (lenTerm cfg l.length) l).1 then false
       else if true = true ∧ (BaseX.isValidGo cfg (lenTerm cfg l.length) l).2 ≠ 0 then false
       else true) from rfl]
  by_cases hall : ∀ c ∈ l, cfg.ordOf c < cfg.base
  · rw [isValidGo_all cfg l _ hall]
    by_cases hz : lenTerm cfg l.length ^^^ xorOrds cfg l = 0
    · simpa [hz] using hall
    · simp [hz, hall]
  · have hbad : ∃ c ∈ l, ¬ cfg.ordOf c < cfg.base := by
      push_neg at hall
      obtain ⟨c, hc, hge⟩ := hall
      exact ⟨c, hc, by omega⟩
    have hfalse := isValidGo_bad cfg l (lenTerm cfg l.length) hbad
    rw [hfalse]
    simp [hall]

/-- One step of `xorOrds`. -/
theorem xorOrds_cons (cfg : BaseXCfg) (x : Nat) (l : List Nat) :
    xorOrds cfg (x :: l) = cfg.ordOf x ^^^ xorOrds cfg l := rfl

/-- Replacing the character at a position XORs its old and new digit
values into the digit-value XOR of the string. -/
theorem xorOrds_set (cfg : BaseXCfg) :
    ∀ (s : List Nat) (i : Nat) (c : Nat), i < s.length →
      xorOrds cfg (s.set i c) =
        (xorOrds cfg s ^^^ cfg.ordOf (s.getD i 0)) ^^^ cfg.ordOf c := by
  intro s
  induction s with
  | nil => intro i c h; simp at h
  | cons a t ih =>
      intro i c h
      cases i with
      | zero =>
          rw [List.set_cons_zero, xorOrds_cons, xorOrds_cons, List.getD_cons_zero]
          rw [Nat.xor_comm (cfg.ordOf a) (xorOrds cfg t),
            Nat.xor_assoc (xorOrds cfg t) (cfg.ordOf a) (cfg.ordOf a),
            Nat.xor_self, Nat.xor_zero]
          exact Nat.xor_comm _ _
      | succ i =>
          rw [List.set_cons_succ, xorOrds_cons, xorOrds_cons, List.getD_cons_succ]
          rw [ih i c (by simpa using h)]
          simp only [Nat.xor_assoc]

/-- C6 as amended: for every codec and every string the checksummed
`is_valid` accepts, replacing one character by one with a *different
digit value* (an invalid character included) makes `is_valid` fail; the
checksum does not detect substitutions that keep the digit value, such as
the opposite case of a letter under IGNORE_CASE or an ignored character in
place of the zero digit (see the counterexample). -/
theorem C6_checksum_amended (cfg : BaseXCfg) (s : List Nat) (i cNew : Nat)
    (hv : BaseX.is_valid cfg s true = true) (hi : i < s.length)
    (hd : cfg.ordOf cNew ≠ cfg.ordOf (s.getD i 0)) :
    BaseX.is_valid cfg (s.set i cNew) true = false := by
  obtain ⟨hall, hsum⟩ := (is_valid_checksum_iff cfg s).mp hv
  rw [Bool.eq_false_iff]
  intro hcontra
  obtain ⟨hall2, hz⟩ := (is_valid_checksum_iff cfg _).mp hcontra
  by_cases hnew : cfg.ordOf cNew < cfg.base
  · rw [List.length_set, xorOrds_set cfg s i cNew hi] at hz
    have hL : lenTerm cfg s.length = xorOrds cfg s := Nat.xor_eq_zero.mp hsum
    rw [hL, ← Nat.xor_assoc, ← Nat.xor_assoc, Nat.xor_self, Nat.zero_xor] at hz
    exact hd (Nat.xor_eq_zero.mp hz).symm
  · have hlen : i < (s.set i cNew).length := by simpa using hi
    have hmem : cNew ∈ s.set i cNew := by
      have hget := List.getElem_set_self (l := s) (a := cNew) (i := i) hlen
      have := List.get_mem (s.set i cNew) i hlen
      rw [List.get_eq_getElem, hget] at this
      exact this
    exact hnew (hall2 cNew hmem)

/-- Witness for `C6_checksum_amended`: the checksummed base58-bitcoin
string "21" is accepted, and replacing its first character by the
different-digit character "3" is rejected. -/
theorem C6_checksum_amended_witness :
    BaseX.is_valid base58bitcoinC (([50, 49] : List Nat).set 0 51) true = false :=
  C6_checksum_amended base58bitcoinC [50, 49] 0 51 (by decide) (by decide) (by decide)

/-- Counterexample to C6: the `base16` codec is IGNORE_CASE, so the
characters `a` (97) and `A` (65) share the digit value 10.  Encoding the
value 10 with the checksum option produces "ab"; replacing its first
character by the *different* character `A` leaves a tampered string that
`is_valid` still accepts. -/
theorem C6_checksum_counterexample :
    BaseX.encodeNum base16C [10] true = [97, 98] ∧
      ([97, 98] : List Nat).set 0 65 = [65, 98] ∧
      (65 : Nat) ≠ 97 ∧
      BaseX.is_valid base16C [65, 98] true = true := by
  refine ⟨by decide, by decide, by decide, by decide⟩

/-! ## Positional values: generic lemmas for the round-trip proof -/

/-- The value of a little-endian digit list in base `B`.
`uint_t.valList = digitsVal (2^64)`, `uint_t.valHalf = digitsVal (2^32)`,
and `uint_t.bytesToDigit = digitsVal 256` hold definitionally. -/
def digitsVal (B : Nat) (l : List Nat) : Nat :=
  l.foldr (fun d acc => d + acc * B) 0

/-- The value of a big-endian digit list in base `B`. -/
def beVal (B : Nat) (l : List Nat) : Nat :=
  l.foldl (fun acc d => acc * B + d) 0

theorem valList_eq_digitsVal (l : List Nat) : uint_t.valList l = digitsVal (2 ^ 64) l := rfl

theorem valHalf_eq_digitsVal (l : List Nat) : uint_t.valHalf l = digitsVal (2 ^ 32) l := rfl

theorem bytesToDigit_eq_digitsVal (l : List Nat) : uint_t.bytesToDigit l = digitsVal 256 l := rfl

theorem digitsVal_nil (B : Nat) : digitsVal B [] = 0 := rfl

theorem digitsVal_cons (B d : Nat) (l : List Nat) :
    digitsVal B (d :: l) = d + digitsVal B l * B := rfl

theorem digitsVal_append (B : Nat) (a b : List Nat) :
    digitsVal B (a ++ b) = digitsVal B a + digitsVal B b * B ^ a.length := by
  induction a with
  | nil => simp [digitsVal]
  | cons d t ih =>
      simp only [List.cons_append, digitsVal_cons, ih, List.length_cons]
      ring

theorem digitsVal_lt (B : Nat) :
    ∀ l : List Nat, (∀ d ∈ l, d < B) → digitsVal B l < B ^ l.length := by
  intro l
  induction l with
  | nil => intro _; simp [digitsVal]
  | cons d t ih =>
      intro h
      have hd : d < B := h d (by simp)
      have ht := ih (fun x hx => h x (by simp [hx]))
      have h2 : (digitsVal B t + 1) * B ≤ B ^ t.length * B :=
        Nat.mul_le_mul_right B (by omega)
      simp only [digitsVal_cons, List.length_cons, pow_succ]
      calc d + digitsVal B t * B < B + digitsVal B t * B := by omega
        _ = (digitsVal B t + 1) * B := by ring
        _ ≤ B ^ t.length * B := h2

theorem beVal_aux (B : Nat) :
    ∀ (l : List Nat) (init : Nat),
      l.foldl (fun acc d => acc * B + d) init = init * B ^ l.length + beVal B l := by
  intro l
  induction l with
  | nil => intro init; simp [beVal]
  | cons d t ih =>
      intro init
      rw [List.foldl_cons, ih (init * B + d)]
      have hb : beVal B (d :: t) = d * B ^ t.length + beVal B t := by
        show List.foldl _ (0 * B + d) t = _
        rw [show (0 * B + d) = d from by ring, ih d]
      rw [hb]
      simp only [List.length_cons]
      ring

theorem digitsVal_reverse (B : Nat) :
    ∀ l : List Nat, digitsVal B l = beVal B l.reverse := by
  intro l
  induction l with
  | nil => rfl
  | cons d t ih =>
      simp only [digitsVal_cons, List.reverse_cons, beVal, List.foldl_append, ih]
      show d + beVal B t.reverse * B = beVal B t.reverse * B + d
      ring

/-- Dropping the trailing (most-significant) zero digits keeps the value. -/
theorem digitsVal_dropTrailEq_zero (B : Nat) (l : List Nat) :
    digitsVal B (BaseX.dropTrailEq 0 l) = digitsVal B l := by
  unfold BaseX.dropTrailEq
  rw [digitsVal_reverse, List.reverse_reverse, digitsVal_reverse B l]
  induction l.reverse with
  | nil => rfl
  | cons d t ih =>
      by_cases hd : d = 0
      · subst hd
        rw [List.dropWhile_cons_of_pos (by simp)]
        rw [ih]
        show beVal B t = List.foldl _ (0 * B + 0) t
        simp [beVal]
      · rw [List.dropWhile_cons_of_neg (by simpa using hd)]

/-- `stripZeros` keeps the value. -/
theorem valList_stripZeros (l : List Nat) :
    uint_t.valList (uint_t.stripZeros l) = uint_t.valList l := by
  have : uint_t.stripZeros l = BaseX.dropTrailEq 0 l := rfl
  rw [this, valList_eq_digitsVal, valList_eq_digitsVal]
  exact digitsVal_dropTrailEq_zero _ l

/-- `trim 0` keeps the value. -/
theorem valList_trim0 (l : List Nat) :
    uint_t.valList (uint_t.trim 0 l) = uint_t.valList l := by
  have : uint_t.trim 0 l = uint_t.stripZeros l := rfl
  rw [this, valList_stripZeros]

/-! Canonical vectors and their values. -/

/-- A bounded canonical vector of length `L` has value at least `dB^(L-1)`:
its most-significant digit is positive. -/
theorem canonical_val_lower (l : List Nat) (hne : l ≠ [])
    (hb : ∀ d ∈ l, d < uint_t.dB) (hc : uint_t.canonicalB l = true) :
    uint_t.dB ^ (l.length - 1) ≤ uint_t.valList l := by
  obtain ⟨t, d, rfl⟩ : ∃ t d, l = t ++ [d] := by
    refine ⟨l.dropLast, l.getLast hne, ?_⟩
    rw [List.dropLast_append_getLast]
  have hd0 : d ≠ 0 := by
    unfold uint_t.canonicalB at hc
    rw [List.getLast?_concat] at hc
    simpa using hc
  rw [valList_eq_digitsVal, digitsVal_append]
  have : 1 ≤ digitsVal (2 ^ 64) [d] := by
    simp [digitsVal]
    omega
  have hlen : (t ++ [d]).length - 1 = t.length := by simp
  rw [hlen]
  calc (2 ^ 64 : Nat) ^ t.length = 1 * (2 ^ 64) ^ t.length := by ring
    _ ≤ digitsVal (2 ^ 64) [d] * (2 ^ 64) ^ t.length := Nat.mul_le_mul_right _ this
    _ ≤ digitsVal (2 ^ 64) t + digitsVal (2 ^ 64) [d] * (2 ^ 64) ^ t.length := by omega

/-- A bounded vector whose value is at least `dB^(L-1)` is canonical. -/
theorem canonical_of_val_lower (l : List Nat) (hne : l ≠ [])
    (hb : ∀ d ∈ l, d < uint_t.dB)
    (hv : uint_t.dB ^ (l.length - 1) ≤ uint_t.valList l) :
    uint_t.canonicalB l = true := by
  obtain ⟨t, d, rfl⟩ : ∃ t d, l = t ++ [d] := by
    refine ⟨l.dropLast, l.getLast hne, ?_⟩
    rw [List.dropLast_append_getLast]
  unfold uint_t.canonicalB
  rw [List.getLast?_concat]
  by_contra hd
  simp only [bne_iff_ne, ne_eq, not_not] at hd
  subst hd
  rw [valList_eq_digitsVal, digitsVal_append] at hv
  have ht : digitsVal (2 ^ 64) t < (2 ^ 64) ^ t.length :=
    digitsVal_lt _ t (fun x hx => hb x (by simp [hx]))
  have hz : digitsVal (2 ^ 64) [0] = 0 := by simp [digitsVal]
  rw [hz] at hv
  have hlen2 : (t ++ [0]).length - 1 = t.length := by simp
  rw [hlen2] at hv
  simp only [Nat.zero_mul, Nat.add_zero, uint_t.dB] at hv
  omega

/-- The canonical digit vector of a value evaluates back to it. -/
theorem valList_natDigitsAux :
    ∀ (fuel v : Nat), v < fuel → uint_t.valList (uint_t.natDigitsAux fuel v) = v := by
  intro fuel
  induction fuel with
  | zero => intro v h; omega
  | succ f ih =>
      intro v h
      rw [uint_t.natDigitsAux]
      by_cases hv : v = 0
      · simp [hv, uint_t.valList]
      · rw [if_neg hv]
        have hlt : v / uint_t.dB < f := by
          have h1 : v / uint_t.dB < v := Nat.div_lt_self (by omega) (by norm_num [uint_t.dB])
          omega
        show uint_t.valList (v % uint_t.dB :: _) = v
        rw [valList_eq_digitsVal, digitsVal_cons, ← valList_eq_digitsVal, ih _ hlt]
        show v % uint_t.dB + v / uint_t.dB * uint_t.dB = v
        exact Nat.mod_add_div' v uint_t.dB

theorem valList_natDigits (v : Nat) : uint_t.valList (uint_t.natDigits v) = v :=
  valList_natDigitsAux (v + 1) v (by omega)

theorem natDigitsAux_bounded :
    ∀ (fuel v : Nat), ∀ d ∈ uint_t.natDigitsAux fuel v, d < uint_t.dB := by
  intro fuel
  induction fuel with
  | zero => intro v d h; simp [uint_t.natDigitsAux] at h
  | succ f ih =>
      intro v d h
      rw [uint_t.natDigitsAux] at h
      by_cases hv : v = 0
      · simp [hv] at h
      · rw [if_neg hv] at h
        rcases List.mem_cons.mp h with h1 | h1
        · subst h1
          exact Nat.mod_lt _ (by norm_num [uint_t.dB])
        · exact ih _ d h1

theorem canonicalB_cons (d : Nat) (l : List Nat) :
    uint_t.canonicalB (d :: l) = if l.isEmpty then (d != 0) else uint_t.canonicalB l := by
  cases l with
  | nil => rfl
  | cons a t => rfl

theorem natDigitsAux_zero (fuel : Nat) : uint_t.natDigitsAux fuel 0 = [] := by
  cases fuel with
  | zero => rfl
  | succ f => simp [uint_t.natDigitsAux]

theorem natDigitsAux_ne_nil (fuel v : Nat) (hf : fuel ≠ 0) (hv : v ≠ 0) :
    uint_t.natDigitsAux fuel v ≠ [] := by
  cases fuel with
  | zero => omega
  | succ f =>
      rw [uint_t.natDigitsAux, if_neg hv]
      simp

theorem natDigitsAux_canonical :
    ∀ (fuel v : Nat), v < fuel → uint_t.canonicalB (uint_t.natDigitsAux fuel v) = true := by
  intro fuel
  induction fuel with
  | zero => intro v h; omega
  | succ f ih =>
      intro v h
      rw [uint_t.natDigitsAux]
      by_cases hv : v = 0
      · simp [hv, uint_t.canonicalB]
      · rw [if_neg hv, canonicalB_cons]
        by_cases hq : v / uint_t.dB = 0
        · rw [hq, natDigitsAux_zero]
          have hlt : v < uint_t.dB := by
            by_contra hge
            have h1 : 1 ≤ v / uint_t.dB :=
              (Nat.one_le_div_iff (by norm_num [uint_t.dB])).mpr (by omega)
            omega
          simp only [List.isEmpty_nil, if_pos rfl]
          rw [Nat.mod_eq_of_lt hlt]
          simpa using hv
        · have hfne : f ≠ 0 := by
            by_contra hf0
            subst hf0
            have h1 : v / uint_t.dB < v := Nat.div_lt_self (by omega) (by norm_num [uint_t.dB])
            omega
          have hne := natDigitsAux_ne_nil f (v / uint_t.dB) hfne hq
          rw [if_neg (by simpa [List.isEmpty_iff] using hne)]
          apply ih
          have h1 : v / uint_t.dB < v := Nat.div_lt_self (by omega) (by norm_num [uint_t.dB])
          omega

theorem natDigits_canonical (v : Nat) : uint_t.canonicalB (uint_t.natDigits v) = true :=
  natDigitsAux_canonical (v + 1) v (by omega)

theorem natDigits_bounded (v : Nat) : ∀ d ∈ uint_t.natDigits v, d < uint_t.dB :=
  natDigitsAux_bounded (v + 1) v

theorem natDigitsAux_fuel_irrel :
    ∀ (f1 f2 v : Nat), v < f1 → v < f2 →
      uint_t.natDigitsAux f1 v = uint_t.natDigitsAux f2 v := by
  intro f1
  induction f1 with
  | zero => intro f2 v h1 _; omega
  | succ g1 ih =>
      intro f2 v h1 h2
      cases f2 with
      | zero => omega
      | succ g2 =>
          rw [uint_t.natDigitsAux, uint_t.natDigitsAux]
          by_cases hv : v = 0
          · simp [hv]
          · rw [if_neg hv, if_neg hv]
            congr 1
            have hlt : v / uint_t.dB < v := Nat.div_lt_self (by omega) (by norm_num [uint_t.dB])
            exact ih g2 (v / uint_t.dB) (by omega) (by omega)

theorem natDigitsAux_eq_of_lt (fuel v : Nat) (h : v < fuel) :
    uint_t.natDigitsAux fuel v = uint_t.natDigits v :=
  natDigitsAux_fuel_irrel fuel (v + 1) v h (by omega)

/-- A bounded canonical vector is determined by its value: it is the
canonical vector of that value. -/
theorem natDigits_of_canonical :
    ∀ l : List Nat, (∀ d ∈ l, d < uint_t.dB) → uint_t.canonicalB l = true →
      uint_t.natDigits (uint_t.valList l) = l := by
  have main : ∀ (L : Nat) (l : List Nat), l.length ≤ L →
      (∀ d ∈ l, d < uint_t.dB) → uint_t.canonicalB l = true →
      uint_t.natDigits (uint_t.valList l) = l := by
    intro L
    induction L with
    | zero =>
        intro l hl _ _
        have : l = [] := List.eq_nil_of_length_eq_zero (by omega)
        subst this
        rfl
    | succ L ih =>
        intro l hl hb hc
        cases l with
        | nil => rfl
        | cons d t =>
            have hbt : ∀ x ∈ t, x < uint_t.dB := fun x hx => hb x (by simp [hx])
            have hct : uint_t.canonicalB t = true := by
              rw [canonicalB_cons] at hc
              by_cases ht : t = []
              · simp [ht, uint_t.canonicalB]
              · rwa [if_neg (by simpa [List.isEmpty_iff] using ht)] at hc
            have iht := ih t (by simpa using hl) hbt hct
            have hv : uint_t.valList (d :: t) = d + uint_t.valList t * uint_t.dB := rfl
            have hd : d < uint_t.dB := hb d (by simp)
            unfold uint_t.natDigits
            rw [hv]
            rw [show uint_t.natDigitsAux (d + uint_t.valList t * uint_t.dB + 1)
                (d + uint_t.valList t * uint_t.dB) =
              if (d + uint_t.valList t * uint_t.dB) = 0 then [] else
                (d + uint_t.valList t * uint_t.dB) % uint_t.dB ::
                  uint_t.natDigitsAux (d + uint_t.valList t * uint_t.dB)
                    ((d + uint_t.valList t * uint_t.dB) / uint_t.dB) from by
              rw [uint_t.natDigitsAux]]
            by_cases hz : d + uint_t.valList t * uint_t.dB = 0
            · -- value 0: then d = 0 and valList t = 0; canonicality forces t = []
              -- and then d != 0 - contradiction unless the list is [0], which
              -- canonicality excludes; in fact the only canonical list of value
              -- 0 is [] so d :: t cannot have value 0
              exfalso
              have hd0 : d = 0 := by omega
              have hvt : uint_t.valList t = 0 := by
                have hdbpos : 0 < uint_t.dB := by norm_num [uint_t.dB]
                by_cases h0 : uint_t.valList t = 0
                · exact h0
                · exfalso; have : uint_t.valList t * uint_t.dB ≥ uint_t.dB :=
                    Nat.le_mul_of_pos_left _ (by omega)
                  omega
              have ht : t = [] := by
                by_contra htne
                have := canonical_val_lower t htne hbt hct
                have h1 : (1 : Nat) ≤ uint_t.dB ^ (t.length - 1) := Nat.one_le_pow _ _ (by norm_num [uint_t.dB])
                omega
              subst ht
              rw [canonicalB_cons] at hc
              simp only [List.isEmpty_nil, if_pos rfl] at hc
              subst hd0
              simp at hc
            · rw [if_neg hz]
              have hmod : (d + uint_t.valList t * uint_t.dB) % uint_t.dB = d := by
                rw [Nat.add_mul_mod_self_right, Nat.mod_eq_of_lt hd]
              have hdiv : (d + uint_t.valList t * uint_t.dB) / uint_t.dB = uint_t.valList t := by
                rw [Nat.add_mul_div_right _ _ (by norm_num [uint_t.dB] : 0 < uint_t.dB),
                  Nat.div_eq_of_lt hd]
                omega
              rw [hmod, hdiv]
              congr 1
              -- tail: natDigitsAux with larger fuel equals natDigits (valList t)
              have hfuel : uint_t.valList t < d + uint_t.valList t * uint_t.dB := by
                by_cases h0 : uint_t.valList t = 0
                · omega
                · have : uint_t.valList t * 2 ≤ uint_t.valList t * uint_t.dB :=
                    Nat.mul_le_mul_left _ (by norm_num [uint_t.dB])
                  omega
              rw [natDigitsAux_eq_of_lt _ _ hfuel]
              exact iht
  intro l hb hc
  exact main l.length l (le_refl _) hb hc

/-! Correctness of `uint_t.compare` on bounded canonical vectors. -/

theorem beVal_eq_digitsVal_reverse (B : Nat) (m : List Nat) :
    beVal B m = digitsVal B m.reverse := by
  rw [digitsVal_reverse, List.reverse_reverse]

theorem beVal_cons (B a : Nat) (t : List Nat) :
    beVal B (a :: t) = a * B ^ t.length + beVal B t := by
  show List.foldl _ (0 * B + a) t = _
  rw [beVal_aux]
  ring

theorem beVal_lt (B : Nat) (m : List Nat) (hb : ∀ d ∈ m, d < B) :
    beVal B m < B ^ m.length := by
  rw [beVal_eq_digitsVal_reverse, ← List.length_reverse]
  exact digitsVal_lt B m.reverse (fun d hd => hb d (List.mem_reverse.mp hd))

theorem compareRevLex_spec :
    ∀ (m1 m2 : List Nat), m1.length = m2.length →
      (∀ d ∈ m1, d < uint_t.dB) → (∀ d ∈ m2, d < uint_t.dB) →
      uint_t.compareRevLex m1 m2 =
        if beVal uint_t.dB m1 < beVal uint_t.dB m2 then -1
        else if beVal uint_t.dB m2 < beVal uint_t.dB m1 then 1 else 0 := by
  intro m1
  induction m1 with
  | nil =>
      intro m2 hlen _ _
      have : m2 = [] := List.eq_nil_of_length_eq_zero (by simpa using hlen.symm)
      subst this
      rfl
  | cons a t ih =>
      intro m2 hlen hb1 hb2
      cases m2 with
      | nil => simp at hlen
      | cons b u =>
          have hlen2 : t.length = u.length := by simpa using hlen
          have hbt : ∀ d ∈ t, d < uint_t.dB := fun d hd => hb1 d (by simp [hd])
          have hbu : ∀ d ∈ u, d < uint_t.dB := fun d hd => hb2 d (by simp [hd])
          have hvt : beVal uint_t.dB t < uint_t.dB ^ t.length := beVal_lt _ t hbt
          have hvu : beVal uint_t.dB u < uint_t.dB ^ u.length := beVal_lt _ u hbu
          rw [hlen2] at hvt
          rw [beVal_cons, beVal_cons, hlen2]
          show (if a > b then 1 else if a < b then -1 else uint_t.compareRevLex t u) = _
      
          by_cases hab : a > b
          · rw [if_pos hab]
            have step : b * uint_t.dB ^ u.length + uint_t.dB ^ u.length ≤
                a * uint_t.dB ^ u.length := by
              have h1 : (b + 1) * uint_t.dB ^ u.length ≤ a * uint_t.dB ^ u.length :=
                Nat.mul_le_mul_right _ (by omega)
              rw [Nat.succ_mul] at h1
              omega
            rw [if_neg (by omega), if_pos (by omega)]
          · rw [if_neg hab]
            by_cases hba : a < b
            · rw [if_pos hba]
              have step : a * uint_t.dB ^ u.length + uint_t.dB ^ u.length ≤
                  b * uint_t.dB ^ u.length := by
                have h1 : (a + 1) * uint_t.dB ^ u.length ≤ b * uint_t.dB ^ u.length :=
                  Nat.mul_le_mul_right _ (by omega)
                rw [Nat.succ_mul] at h1
                omega
              rw [if_pos (by omega)]
            · have hab2 : a = b := by omega
              subst hab2
              rw [if_neg hba, ih u hlen2 hbt hbu]
              simp only [Nat.add_lt_add_iff_left]

/-- `uint_t.compare` computes the sign of the value difference on bounded
canonical vectors. -/
theorem compare_spec (l r : List Nat)
    (hbl : ∀ d ∈ l, d < uint_t.dB) (hbr : ∀ d ∈ r, d < uint_t.dB)
    (hcl : uint_t.canonicalB l = true) (hcr : uint_t.canonicalB r = true) :
    uint_t.compare l r =
      if uint_t.valList l < uint_t.valList r then -1
      else if uint_t.valList r < uint_t.valList l then 1 else 0 := by
  unfold uint_t.compare
  by_cases hgt : l.length > r.length
  · rw [if_pos hgt]
    have hne : l ≠ [] := by
      intro h
      subst h
      simp at hgt
    have h1 : uint_t.valList r < uint_t.dB ^ r.length :=
      (valList_eq_digitsVal r) ▸ digitsVal_lt _ r hbr
    have h2 : uint_t.dB ^ (l.length - 1) ≤ uint_t.valList l :=
      canonical_val_lower l hne hbl hcl
    have h3 : uint_t.dB ^ r.length ≤ uint_t.dB ^ (l.length - 1) :=
      Nat.pow_le_pow_right (by norm_num [uint_t.dB]) (by omega)
    rw [if_neg (by omega), if_pos (by omega)]
  · rw [if_neg hgt]
    by_cases hlt : l.length < r.length
    · rw [if_pos hlt]
      have hne : r ≠ [] := by
        intro h
        subst h
        simp at hlt
      have h1 : uint_t.valList l < uint_t.dB ^ l.length :=
        (valList_eq_digitsVal l) ▸ digitsVal_lt _ l hbl
      have h2 : uint_t.dB ^ (r.length - 1) ≤ uint_t.valList r :=
        canonical_val_lower r hne hbr hcr
      have h3 : uint_t.dB ^ l.length ≤ uint_t.dB ^ (r.length - 1) :=
        Nat.pow_le_pow_right (by norm_num [uint_t.dB]) (by omega)
      rw [if_pos (by omega)]
    · rw [if_neg hlt]
      have hlen : l.reverse.length = r.reverse.length := by
        simp
        omega
      rw [compareRevLex_spec l.reverse r.reverse hlen
        (fun d hd => hbl d (List.mem_reverse.mp hd))
        (fun d hd => hbr d (List.mem_reverse.mp hd))]
      have e1 : uint_t.valList l = beVal uint_t.dB l.reverse := by
        rw [valList_eq_digitsVal, digitsVal_reverse]
        rfl
      have e2 : uint_t.valList r = beVal uint_t.dB r.reverse := by
        rw [valList_eq_digitsVal, digitsVal_reverse]
        rfl
      rw [e1, e2]

/-! Correctness of `single_divmod` and of `divmod` for single-digit
divisors (the only divisors the codec uses). -/

theorem stripZeros_subset (l : List Nat) : ∀ d ∈ uint_t.stripZeros l, d ∈ l := by
  intro d hd
  unfold uint_t.stripZeros at hd
  rw [List.mem_reverse] at hd
  have := (List.dropWhile_sublist (l := l.reverse) (p := fun d => d == 0)).mem hd
  exact List.mem_reverse.mp this

theorem sdGo_length (n : Nat) : ∀ (m : List Nat) (r : Nat),
    (uint_t.sdGo n r m).1.length = m.length := by
  intro m
  induction m with
  | nil => intro r; rfl
  | cons d ds ih =>
      intro r
      show (_ :: (uint_t.sdGo n _ ds).1).length = _
      simp [ih]

theorem sdGo_spec (n : Nat) (hn : 0 < n) :
    ∀ (m : List Nat) (r : Nat), r < n → (∀ d ∈ m, d < uint_t.dB) →
      (∀ d ∈ (uint_t.sdGo n r m).1, d < uint_t.dB) ∧
      (uint_t.sdGo n r m).2 < n ∧
      beVal uint_t.dB (uint_t.sdGo n r m).1 * n + (uint_t.sdGo n r m).2 =
        r * uint_t.dB ^ m.length + beVal uint_t.dB m := by
  intro m
  induction m with
  | nil =>
      intro r hr _
      refine ⟨by simp [uint_t.sdGo], by simpa [uint_t.sdGo] using hr, ?_⟩
      simp [uint_t.sdGo, beVal]
  | cons d ds ih =>
      intro r hr hb
      have hd : d < uint_t.dB := hb d (by simp)
      have hbds : ∀ x ∈ ds, x < uint_t.dB := fun x hx => hb x (by simp [hx])
      have hx : r * uint_t.dB + d < n * uint_t.dB := by
        have h1 : (r + 1) * uint_t.dB ≤ n * uint_t.dB := Nat.mul_le_mul_right _ (by omega)
        rw [Nat.succ_mul] at h1
        omega
      have hq1 : (r * uint_t.dB + d) / n < uint_t.dB := by
        rw [Nat.div_lt_iff_lt_mul hn]
        calc r * uint_t.dB + d < n * uint_t.dB := hx
          _ = uint_t.dB * n := by ring
      have hq1m : (r * uint_t.dB + d) / n % uint_t.dB = (r * uint_t.dB + d) / n :=
        Nat.mod_eq_of_lt hq1
      have hr1 : (r * uint_t.dB + d) % n < n := Nat.mod_lt _ hn
      obtain ⟨ihb, ihr, ihv⟩ := ih ((r * uint_t.dB + d) % n) hr1 hbds
      have hstep : uint_t.sdGo n r (d :: ds) =
          ((r * uint_t.dB + d) / n % uint_t.dB ::
              (uint_t.sdGo n ((r * uint_t.dB + d) % n) ds).1,
            (uint_t.sdGo n ((r * uint_t.dB + d) % n) ds).2) := rfl
      rw [hstep]
      refine ⟨?_, by simpa using ihr, ?_⟩
      · intro x hx2
        rcases List.mem_cons.mp hx2 with h1 | h1
        · subst h1
          rw [hq1m]
          exact hq1
        · exact ihb x h1
      · show beVal uint_t.dB (_ :: _) * n + _ = _
        rw [beVal_cons, hq1m, sdGo_length]
        have hdm : (r * uint_t.dB + d) / n * n + (r * uint_t.dB + d) % n =
            r * uint_t.dB + d := by
          rw [Nat.mul_comm]
          exact Nat.div_add_mod _ n
        have hbe : beVal uint_t.dB (d :: ds) =
            d * uint_t.dB ^ ds.length + beVal uint_t.dB ds := beVal_cons _ _ _
        calc ((r * uint_t.dB + d) / n * uint_t.dB ^ ds.length +
                beVal uint_t.dB (uint_t.sdGo n ((r * uint_t.dB + d) % n) ds).1) * n +
              (uint_t.sdGo n ((r * uint_t.dB + d) % n) ds).2
            = (r * uint_t.dB + d) / n * n * uint_t.dB ^ ds.length +
                (beVal uint_t.dB (uint_t.sdGo n ((r * uint_t.dB + d) % n) ds).1 * n +
                  (uint_t.sdGo n ((r * uint_t.dB + d) % n) ds).2) := by ring
          _ = (r * uint_t.dB + d) / n * n * uint_t.dB ^ ds.length +
                ((r * uint_t.dB + d) % n * uint_t.dB ^ ds.length + beVal uint_t.dB ds) := by
                rw [ihv]
          _ = ((r * uint_t.dB + d) / n * n + (r * uint_t.dB + d) % n) *
                uint_t.dB ^ ds.length + beVal uint_t.dB ds := by ring
          _ = (r * uint_t.dB + d) * uint_t.dB ^ ds.length + beVal uint_t.dB ds := by
                rw [hdm]
          _ = r * uint_t.dB ^ (d :: ds).length + beVal uint_t.dB (d :: ds) := by
                rw [hbe, List.length_cons, pow_succ]
                ring

theorem single_divmod_spec (l : List Nat) (b : Nat) (hb : 0 < b) (hbd : b < uint_t.dB)
    (hbl : ∀ d ∈ l, d < uint_t.dB) :
    uint_t.valList (uint_t.single_divmod l [b]).1 = uint_t.valList l / b ∧
      uint_t.valList (uint_t.single_divmod l [b]).2 = uint_t.valList l % b ∧
      uint_t.canonicalB (uint_t.single_divmod l [b]).1 = true ∧
      (∀ d ∈ (uint_t.single_divmod l [b]).1, d < uint_t.dB) ∧
      uint_t.canonicalB (uint_t.single_divmod l [b]).2 = true ∧
      (∀ d ∈ (uint_t.single_divmod l [b]).2, d < uint_t.dB) := by
  obtain ⟨hqb, hrb, hv⟩ := sdGo_spec b hb l.reverse 0 hb
    (fun d hd => hbl d (List.mem_reverse.mp hd))
  have hval : beVal uint_t.dB (uint_t.sdGo b 0 l.reverse).1 * b +
      (uint_t.sdGo b 0 l.reverse).2 = uint_t.valList l := by
    rw [hv]
    have : beVal uint_t.dB l.reverse = uint_t.valList l := by
      rw [beVal_eq_digitsVal_reverse, List.reverse_reverse, valList_eq_digitsVal]
      rfl
    rw [this]
    ring
  set Q := beVal uint_t.dB (uint_t.sdGo b 0 l.reverse).1 with hQdef
  set R := (uint_t.sdGo b 0 l.reverse).2 with hRdef
  have hQ : uint_t.valList l / b = Q := by
    rw [← hval, Nat.add_comm, Nat.mul_comm, Nat.add_mul_div_left _ _ hb,
      Nat.div_eq_of_lt hrb]
    omega
  have hR : uint_t.valList l % b = R := by
    rw [← hval, Nat.add_comm, Nat.mul_comm, Nat.add_mul_mod_self_left,
      Nat.mod_eq_of_lt hrb]
  have hout1 : (uint_t.single_divmod l [b]).1 =
      uint_t.trim 0 (uint_t.sdGo b 0 l.reverse).1.reverse := rfl
  have hout2 : (uint_t.single_divmod l [b]).2 =
      (if R = 0 then [] else [R]) := rfl
  refine ⟨?_, ?_, ?_, ?_, ?_, ?_⟩
  · rw [hout1, valList_trim0, valList_eq_digitsVal, digitsVal_reverse,
      List.reverse_reverse, hQ]
    rfl
  · rw [hout2]
    by_cases h0 : R = 0
    · rw [if_pos h0, hR, h0]
      rfl
    · rw [if_neg h0, hR]
      show uint_t.valList [R] = R
      simp [uint_t.valList]
  · rw [hout1]
    exact canonicalB_trim 0 _
  · rw [hout1]
    intro d hd
    have h1 : uint_t.trim 0 (uint_t.sdGo b 0 l.reverse).1.reverse =
        uint_t.stripZeros (uint_t.sdGo b 0 l.reverse).1.reverse := rfl
    rw [h1] at hd
    have := stripZeros_subset _ d hd
    exact hqb d (List.mem_reverse.mp this)
  · rw [hout2]
    by_cases h0 : R = 0
    · simp [h0, uint_t.canonicalB]
    · rw [if_neg h0]
      unfold uint_t.canonicalB
      simpa using h0
  · rw [hout2]
    intro d hd
    by_cases h0 : R = 0
    · rw [if_pos h0] at hd
      simp at hd
    · rw [if_neg h0] at hd
      simp at hd
      subst hd
      omega

/-- `uint_t.divmod` is correct whenever the divisor is the single-digit
vector of a base value `2 <= b < 2^64` and the dividend is bounded and
canonical: it returns quotient and remainder vectors whose values are the
Nat quotient and remainder, both bounded and canonical. -/
theorem divmod_single_spec (l : List Nat) (b : Nat)
    (hb2 : 2 ≤ b) (hbd : b < uint_t.dB)
    (hbl : ∀ d ∈ l, d < uint_t.dB) (hcl : uint_t.canonicalB l = true) :
    ∃ q r, uint_t.divmod l [b] = .ok (q, r) ∧
      uint_t.valList q = uint_t.valList l / b ∧
      uint_t.valList r = uint_t.valList l % b ∧
      uint_t.canonicalB q = true ∧ (∀ d ∈ q, d < uint_t.dB) ∧
      uint_t.canonicalB r = true ∧ (∀ d ∈ r, d < uint_t.dB) := by
  have hvb : uint_t.valList [b] = b := by simp [uint_t.valList]
  have hcb : uint_t.canonicalB [b] = true := by
    unfold uint_t.canonicalB
    simp only [List.getLast?_singleton]
    simpa using (by omega : b ≠ 0)
  have hbb : ∀ d ∈ [b], d < uint_t.dB := by
    intro d hd
    simp at hd
    omega
  unfold uint_t.divmod
  rw [if_neg (by simp)]
  by_cases hl1 : l.length = 1
  · rw [if_pos ⟨hl1, rfl⟩]
    obtain ⟨a, rfl⟩ := List.length_eq_one.mp hl1
    have ha : a < uint_t.dB := hbl a (by simp)
    have hva : uint_t.valList [a] = a := by simp [uint_t.valList]
    have hh : ([a] : List Nat).headD 0 = a := rfl
    have hh2 : ([b] : List Nat).headD 0 = b := rfl
    refine ⟨_, _, rfl, ?_, ?_, ?_, ?_, ?_, ?_⟩
    · rw [hva, hh, hh2]
      by_cases h0 : a / b = 0
      · rw [if_pos h0, h0]; rfl
      · rw [if_neg h0]; simp [uint_t.valList]
    · rw [hva, hh, hh2]
      by_cases h0 : a % b = 0
      · rw [if_pos h0, h0]; rfl
      · rw [if_neg h0]; simp [uint_t.valList]
    · rw [hh, hh2]
      by_cases h0 : a / b = 0
      · simp [h0, uint_t.canonicalB]
      · rw [if_neg h0]
        unfold uint_t.canonicalB
        simpa using h0
    · rw [hh, hh2]
      intro d hd
      by_cases h0 : a / b = 0
      · rw [if_pos h0] at hd; simp at hd
      · rw [if_neg h0] at hd
        simp at hd
        subst hd
        have : a / b ≤ a := Nat.div_le_self a b
        omega
    · rw [hh, hh2]
      by_cases h0 : a % b = 0
      · simp [h0, uint_t.canonicalB]
      · rw [if_neg h0]
        unfold uint_t.canonicalB
        simpa using h0
    · rw [hh, hh2]
      intro d hd
      by_cases h0 : a % b = 0
      · rw [if_pos h0] at hd; simp at hd
      · rw [if_neg h0] at hd
        simp at hd
        subst hd
        have : a % b < b := Nat.mod_lt _ (by omega)
        omega
  · rw [if_neg (by simp [hl1])]
    have hc1 : uint_t.compare [b] [1] = 1 := by
      rw [compare_spec [b] [1] hbb (by intro d hd; simp at hd; omega; ) hcb (by decide)]
      rw [hvb]
      have hv1 : uint_t.valList [1] = 1 := by simp [uint_t.valList]
      rw [hv1, if_neg (by omega), if_pos (by omega)]
    rw [if_neg (by rw [hc1]; decide)]
    have hcmp := compare_spec l [b] hbl hbb hcl hcb
    rw [hvb] at hcmp
    by_cases heq : uint_t.valList l = b
    · have : uint_t.compare l [b] = 0 := by
        rw [hcmp, if_neg (by omega), if_neg (by omega)]
      rw [if_pos this]
      refine ⟨_, _, rfl, ?_, ?_, by decide, by decide, by decide, by decide⟩
      · rw [heq]
        simp [uint_t.valList]
        exact (Nat.div_self (by omega)).symm
      · rw [heq]
        simp [uint_t.valList, Nat.mod_self]
    · by_cases hlt : uint_t.valList l < b
      · have hcc : uint_t.compare l [b] = -1 := by
          rw [hcmp, if_pos hlt]
        rw [if_neg (by rw [hcc]; decide), if_pos (by right; rw [hcc]; decide)]
        refine ⟨_, _, rfl, ?_, ?_, by decide, by decide, hcl, hbl⟩
        · rw [Nat.div_eq_of_lt hlt]; rfl
        · rw [Nat.mod_eq_of_lt hlt]
      · have hgt : b < uint_t.valList l := by omega
        have hcc : uint_t.compare l [b] = 1 := by
          rw [hcmp, if_neg (by omega), if_pos hgt]
        have hlne : l.length ≠ 0 := by
          intro h0
          have : l = [] := List.eq_nil_of_length_eq_zero h0
          subst this
          have : uint_t.valList ([] : List Nat) = 0 := rfl
          omega
        rw [if_neg (by rw [hcc]; decide),
          if_neg (by push_neg; exact ⟨hlne, by rw [hcc]; decide⟩),
          if_pos (show ([b] : List Nat).length = 1 from rfl)]
        obtain ⟨h1, h2, h3, h4, h5, h6⟩ := single_divmod_spec l b (by omega) hbd hbl
        exact ⟨_, _, rfl, h1, h2, h3, h4, h5, h6⟩

/-- A bounded canonical vector of value below `2^64` reads out through
`headD 0` (the `static_cast<int>` of a `uint_t`) as its value. -/
theorem headD_of_canonical_small (r : List Nat) (hb : ∀ d ∈ r, d < uint_t.dB)
    (hc : uint_t.canonicalB r = true) (hs : uint_t.valList r < uint_t.dB) :
    r.headD 0 = uint_t.valList r := by
  cases r with
  | nil => rfl
  | cons x t =>
      cases t with
      | nil =>
          show x = uint_t.valList [x]
          simp [uint_t.valList]
      | cons y u =>
          exfalso
          have hlow := canonical_val_lower (x :: y :: u) (by simp) hb hc
          have hpow : uint_t.dB ≤ uint_t.dB ^ ((x :: y :: u).length - 1) := by
            have h1 : 1 ≤ (x :: y :: u).length - 1 := by simp
            calc uint_t.dB = uint_t.dB ^ 1 := by ring
              _ ≤ uint_t.dB ^ ((x :: y :: u).length - 1) :=
                  Nat.pow_le_pow_right (by norm_num [uint_t.dB]) h1
          omega

/-- The general-base emission loop of `encode` writes exactly the base-b
digits of the value, least-significant first. -/
theorem encodeDivLoop_spec (cfg : BaseXCfg) (hb2 : 2 ≤ cfg.base)
    (hbd : cfg.base < uint_t.dB) :
    ∀ (fuel : Nat) (q : List Nat), uint_t.valList q < fuel →
      (∀ d ∈ q, d < uint_t.dB) → uint_t.canonicalB q = true →
      digitsVal cfg.base (BaseX.encodeDivLoop cfg fuel q) = uint_t.valList q ∧
      (∀ d ∈ BaseX.encodeDivLoop cfg fuel q, d < cfg.base) := by
  intro fuel
  induction fuel with
  | zero => intro q h _ _; omega
  | succ f ih =>
      intro q hf hb hc
      obtain ⟨q1, r, hdm, hq1v, hrv, hq1c, hq1b, hrc, hrb⟩ :=
        divmod_single_spec q cfg.base hb2 hbd hb hc
      have hrsmall : uint_t.valList r < uint_t.dB := by
        have : uint_t.valList q % cfg.base < cfg.base := Nat.mod_lt _ (by omega)
        omega
      have hdhead : r.headD 0 = uint_t.valList q % cfg.base := by
        rw [headD_of_canonical_small r hrb hrc hrsmall, hrv]
      have hstep : BaseX.encodeDivLoop cfg (f + 1) q =
          r.headD 0 :: (if q1.length ≠ 0 then BaseX.encodeDivLoop cfg f q1 else []) := by
        rw [BaseX.encodeDivLoop, hdm]
      rw [hstep, hdhead]
      by_cases hq1e : q1.length = 0
      · have hq10 : q1 = [] := List.eq_nil_of_length_eq_zero hq1e
        have hv0 : uint_t.valList q / cfg.base = 0 := by
          rw [← hq1v, hq10]
          rfl
        have hsmall : uint_t.valList q < cfg.base := by
          by_contra hge
          have h1 : 1 ≤ uint_t.valList q / cfg.base :=
            (Nat.one_le_div_iff (by omega)).mpr (by omega)
          omega
        rw [if_neg (by omega)]
        constructor
        · rw [digitsVal_cons, digitsVal_nil, Nat.zero_mul, Nat.add_zero]
          exact (Nat.mod_eq_of_lt hsmall)
        · intro d hd
          simp at hd
          subst hd
          exact Nat.mod_lt _ (by omega)
      · have hq1ne : q1 ≠ [] := by
          intro h
          subst h
          simp at hq1e
        have hq1pos : 1 ≤ uint_t.valList q1 := by
          have := canonical_val_lower q1 hq1ne hq1b hq1c
          have hone : (1 : Nat) ≤ uint_t.dB ^ (q1.length - 1) :=
            Nat.one_le_pow _ _ (by norm_num [uint_t.dB])
          omega
        have hqpos : cfg.base ≤ uint_t.valList q := by
          by_contra hlt
          have : uint_t.valList q / cfg.base = 0 := Nat.div_eq_of_lt (by omega)
          omega
        have hdec : uint_t.valList q1 < uint_t.valList q := by
          rw [hq1v]
          exact Nat.div_lt_self (by omega) (by omega)
        obtain ⟨ihv, ihb⟩ := ih q1 (by omega) hq1b hq1c
        rw [if_pos hq1e]
        constructor
        · rw [digitsVal_cons, ihv, hq1v]
          rw [Nat.add_comm, Nat.mul_comm]
          exact Nat.div_add_mod _ _
        · intro d hd
          rcases List.mem_cons.mp hd with h1 | h1
          · subst h1
            exact Nat.mod_lt _ (by omega)
          · exact ihb d h1

/-! The power-of-two extraction loop. -/

/-- Disjoint OR is addition: when `a` fits below bit `k`, OR-ing in a
multiple of `2^k` is the same as adding it. -/
theorem lor_mul_pow_eq_add (k a b : Nat) (ha : a < 2 ^ k) :
    a ||| b * 2 ^ k = a + b * 2 ^ k := by
  apply Nat.eq_of_testBit_eq
  intro i
  rw [Nat.testBit_lor]
  by_cases hik : i < k
  · have hsplit : b * 2 ^ k = b * 2 ^ (k - i - 1) * 2 * 2 ^ i := by
      conv_lhs => rw [show k = (k - i - 1) + 1 + i from by omega]
      rw [pow_add, pow_succ]
      ring
    have h1 : (b * 2 ^ k).testBit i = false := by
      rw [Nat.testBit_to_div_mod, hsplit]
      rw [Nat.mul_div_cancel _ (Nat.pos_pow_of_pos i (by omega))]
      simp [Nat.mul_mod_left]
    have h2 : (a + b * 2 ^ k).testBit i = a.testBit i := by
      rw [Nat.testBit_to_div_mod, Nat.testBit_to_div_mod, hsplit]
      rw [Nat.add_mul_div_right _ _ (Nat.pos_pow_of_pos i (by omega))]
      rw [Nat.add_mul_mod_self_right]
    rw [h1, h2, Bool.or_false]
  · have hik2 : k ≤ i := by omega
    have h1 : a.testBit i = false :=
      Nat.testBit_lt_two_pow (lt_of_lt_of_le ha (Nat.pow_le_pow_right (by omega) hik2))
    have h2 : (a + b * 2 ^ k).testBit i = (b * 2 ^ k).testBit i := by
      rw [Nat.testBit_to_div_mod, Nat.testBit_to_div_mod]
      have e1 : a + b * 2 ^ k = a + b * 2 ^ k := rfl
      have hd1 : (a + b * 2 ^ k) / 2 ^ i = b * 2 ^ k / 2 ^ i := by
        rw [show (2 : Nat) ^ i = 2 ^ k * 2 ^ (i - k) from by
              rw [← pow_add]
              congr 1
              omega]
        rw [← Nat.div_div_eq_div_mul, ← Nat.div_div_eq_div_mul]
        congr 1
        rw [Nat.mul_comm b (2 ^ k), Nat.add_mul_div_left _ _ (Nat.pos_pow_of_pos k (by omega)),
          Nat.mul_div_cancel_left _ (Nat.pos_pow_of_pos k (by omega)),
          Nat.div_eq_of_lt ha]
        omega
      rw [hd1]
    rw [h1, h2, Bool.false_or]

/-- The do-while of the power-of-two emission: the emitted digits are the
consecutive `bb`-bit chunks of `v >> shift`, and the returned shift is the
entry shift plus `bb` per digit, landing in `(32, 32 + bb]`. -/
theorem emitFrom_spec (bb : Nat) (hbb : 1 ≤ bb) :
    ∀ (fuel shift v : Nat), shift ≤ 32 → 32 < shift + fuel * bb →
      ∃ ds s2, BaseX.emitFrom bb (2 ^ bb - 1) fuel v shift = (ds, s2) ∧
        s2 = shift + bb * ds.length ∧ 0 < ds.length ∧ 32 < s2 ∧ s2 ≤ 32 + bb ∧
        digitsVal (2 ^ bb) ds = v >>> shift % 2 ^ (bb * ds.length) ∧
        ∀ d ∈ ds, d < 2 ^ bb := by
  intro fuel
  induction fuel with
  | zero => intro shift v h1 h2; omega
  | succ f ih =>
      intro shift v h1 h2
      have hpow : 0 < 2 ^ bb := Nat.pos_pow_of_pos bb (by omega)
      have heq1 : BaseX.emitFrom bb (2 ^ bb - 1) (f + 1) v shift =
          (if shift + bb ≤ 32 then
            ((v >>> shift &&& (2 ^ bb - 1)) ::
                (BaseX.emitFrom bb (2 ^ bb - 1) f v (shift + bb)).1,
              (BaseX.emitFrom bb (2 ^ bb - 1) f v (shift + bb)).2)
          else ([v >>> shift &&& (2 ^ bb - 1)], shift + bb)) := rfl
      have hand : v >>> shift &&& (2 ^ bb - 1) = v >>> shift % 2 ^ bb :=
        Nat.and_pow_two_sub_one_eq_mod _ bb
      by_cases hc : shift + bb ≤ 32
      · obtain ⟨ds, s2, heq, hs2, hpos, h32, hle, hval, hbnd⟩ :=
          ih (shift + bb) v hc (by have := Nat.add_mul f 1 bb; omega)
        refine ⟨v >>> shift % 2 ^ bb :: ds, s2, ?_, ?_, by simp, h32, hle, ?_, ?_⟩
        · rw [heq1, if_pos hc, heq, hand]
        · rw [List.length_cons, Nat.mul_succ]
          omega
        · rw [digitsVal_cons, hval, List.length_cons]
          rw [Nat.shiftRight_add] at hval ⊢
          rw [show bb * (ds.length + 1) = bb + bb * ds.length from by ring, pow_add,
            Nat.mod_mul, Nat.shiftRight_eq_div_pow (v >>> shift) bb]
          ring
        · intro d hd
          rcases List.mem_cons.mp hd with h | h
          · subst h; exact Nat.mod_lt _ hpow
          · exact hbnd d h
      · refine ⟨[v >>> shift % 2 ^ bb], shift + bb, ?_, by simp [Nat.mul_one], by simp,
          by omega, by omega, ?_, ?_⟩
        · rw [heq1, if_neg hc, hand]
        · simp [digitsVal_cons, digitsVal_nil, Nat.mul_one]
        · intro d hd
          simp at hd
          subst hd
          exact Nat.mod_lt _ hpow

/-- The outer window loop: sliding the remaining half digits through the
64-bit window emits consecutive `bb`-bit chunks of the value still to be
emitted, which is `v >> (32 + shift)` plus the value of the remaining
halves positioned above it. -/
theorem windowLoop_spec (bb : Nat) (hbb : 1 ≤ bb) (hbb32 : bb ≤ 32) :
    ∀ (halfs : List Nat) (v shift : Nat), v < 2 ^ 64 → shift ≤ 32 →
      (∀ x ∈ halfs, x < 2 ^ 32) →
      ∃ ds v2 s2, BaseX.windowLoop bb (2 ^ bb - 1) halfs v shift = (ds, v2, s2) ∧
        v2 < 2 ^ 64 ∧ s2 ≤ 32 ∧
        (∀ d ∈ ds, d < 2 ^ bb) ∧
        digitsVal (2 ^ bb) ds + 2 ^ (bb * ds.length) * (v2 >>> (32 + s2)) =
          v >>> (32 + shift) + 2 ^ (32 - shift) * uint_t.valHalf halfs := by
  intro halfs
  induction halfs with
  | nil =>
      intro v shift hv hs _
      exact ⟨[], v, shift, rfl, hv, hs, by simp, by
        simp [digitsVal_nil, uint_t.valHalf]⟩
  | cons h rest ih =>
      intro v shift hv hs hx
      have hh : h < 2 ^ 32 := hx h (by simp)
      have hv32 : v >>> 32 < 2 ^ 32 := by
        rw [Nat.shiftRight_eq_div_pow]
        have : v < 2 ^ 32 * 2 ^ 32 := by
          rw [← pow_add]
          exact hv
        exact Nat.div_lt_of_lt_mul this
      have hv1 : (v >>> 32) ||| ((h <<< 32) % uint_t.dB) = v >>> 32 + h * 2 ^ 32 := by
        have hsh : (h <<< 32) % uint_t.dB = h * 2 ^ 32 := by
          rw [Nat.shiftLeft_eq]
          have : h * 2 ^ 32 < uint_t.dB := by
            show h * 2 ^ 32 < 2 ^ 64
            calc h * 2 ^ 32 < 2 ^ 32 * 2 ^ 32 := by
                  exact (Nat.mul_lt_mul_right (by norm_num)).mpr hh
              _ = 2 ^ 64 := by norm_num
          exact Nat.mod_eq_of_lt this
        rw [hsh]
        exact lor_mul_pow_eq_add 32 (v >>> 32) h hv32
      have hw64 : v >>> 32 + h * 2 ^ 32 < 2 ^ 64 := by
        have h1 : h * 2 ^ 32 ≤ (2 ^ 32 - 1) * 2 ^ 32 :=
          Nat.mul_le_mul_right _ (by omega)
        have h2 : (2 ^ 32 - 1) * (2 ^ 32 : Nat) = 2 ^ 64 - 2 ^ 32 := by norm_num
        omega
      have heq0 : BaseX.windowLoop bb (2 ^ bb - 1) (h :: rest) v shift =
          ((BaseX.emitFrom bb (2 ^ bb - 1) 33 ((v >>> 32) ||| ((h <<< 32) % uint_t.dB)) shift).1 ++
              (BaseX.windowLoop bb (2 ^ bb - 1) rest ((v >>> 32) ||| ((h <<< 32) % uint_t.dB))
                ((BaseX.emitFrom bb (2 ^ bb - 1) 33 ((v >>> 32) ||| ((h <<< 32) % uint_t.dB)) shift).2 - 32)).1,
            (BaseX.windowLoop bb (2 ^ bb - 1) rest ((v >>> 32) ||| ((h <<< 32) % uint_t.dB))
              ((BaseX.emitFrom bb (2 ^ bb - 1) 33 ((v >>> 32) ||| ((h <<< 32) % uint_t.dB)) shift).2 - 32)).2) := rfl
      rw [hv1] at heq0
      obtain ⟨ds1, s1, heq1, hs1, hm1, h321, hle1, hval1, hbnd1⟩ :=
        emitFrom_spec bb hbb 33 shift (v >>> 32 + h * 2 ^ 32) hs (by omega)
      obtain ⟨ds2, v2, s2, heq2, hv2, hs2, hbnd2, hval2⟩ :=
        ih (v >>> 32 + h * 2 ^ 32) (s1 - 32) hw64 (by omega)
          (fun x hxm => hx x (by simp [hxm]))
      rw [heq1] at heq0
      simp only at heq0
      rw [heq2] at heq0
      refine ⟨ds1 ++ ds2, v2, s2, heq0, hv2, hs2, ?_, ?_⟩
      · intro d hd
        rcases List.mem_append.mp hd with hmem | hmem
        · exact hbnd1 d hmem
        · exact hbnd2 d hmem
      · -- the value identity
        have hkey : (v >>> 32 + h * 2 ^ 32) >>> shift =
            v >>> (32 + shift) + 2 ^ (32 - shift) * h := by
          rw [Nat.shiftRight_eq_div_pow]
          rw [show h * 2 ^ 32 = h * 2 ^ (32 - shift) * 2 ^ shift from by
            rw [Nat.mul_assoc, ← pow_add]
            congr 2
            omega]
          rw [Nat.add_mul_div_right _ _ (Nat.pos_pow_of_pos shift (by omega))]
          rw [← Nat.shiftRight_eq_div_pow, Nat.shiftRight_add]
          ring
        have hfix32 : 32 + (s1 - 32) = s1 := by omega
        have hfixsub : 32 - (s1 - 32) = 64 - s1 := by omega
        rw [hfix32, hfixsub] at hval2
        have hsplit : (v >>> 32 + h * 2 ^ 32) >>> shift % 2 ^ (bb * ds1.length) +
            2 ^ (bb * ds1.length) * ((v >>> 32 + h * 2 ^ 32) >>> s1) =
            (v >>> 32 + h * 2 ^ 32) >>> shift := by
          rw [hs1, Nat.shiftRight_add, Nat.shiftRight_eq_div_pow
            ((v >>> 32 + h * 2 ^ 32) >>> shift) (bb * ds1.length)]
          exact Nat.mod_add_div _ _
        rw [digitsVal_append, List.length_append]
        rw [show (2 ^ bb : Nat) ^ ds1.length = 2 ^ (bb * ds1.length) from (pow_mul 2 bb _).symm]
        rw [show bb * (ds1.length + ds2.length) = bb * ds1.length + bb * ds2.length from by ring,
          pow_add]
        have hrhs : uint_t.valHalf (h :: rest) = h + uint_t.valHalf rest * 2 ^ 32 := rfl
        rw [hrhs, hval1]
        calc (v >>> 32 + h * 2 ^ 32) >>> shift % 2 ^ (bb * ds1.length) +
              digitsVal (2 ^ bb) ds2 * 2 ^ (bb * ds1.length) +
              2 ^ (bb * ds1.length) * 2 ^ (bb * ds2.length) * (v2 >>> (32 + s2))
            = (v >>> 32 + h * 2 ^ 32) >>> shift % 2 ^ (bb * ds1.length) +
              2 ^ (bb * ds1.length) *
                (digitsVal (2 ^ bb) ds2 + 2 ^ (bb * ds2.length) * (v2 >>> (32 + s2))) := by ring
          _ = (v >>> 32 + h * 2 ^ 32) >>> shift % 2 ^ (bb * ds1.length) +
              2 ^ (bb * ds1.length) *
                ((v >>> 32 + h * 2 ^ 32) >>> s1 + 2 ^ (64 - s1) * uint_t.valHalf rest) := by
                rw [hval2]
          _ = (v >>> 32 + h * 2 ^ 32) >>> shift +
              2 ^ (bb * ds1.length) * 2 ^ (64 - s1) * uint_t.valHalf rest := by
                rw [Nat.mul_add, ← Nat.add_assoc, hsplit]
                ring
          _ = v >>> (32 + shift) + 2 ^ (32 - shift) * (h + uint_t.valHalf rest * 2 ^ 32) := by
                rw [hkey, ← pow_add]
                rw [show bb * ds1.length + (64 - s1) = (32 - shift) + 32 from by omega]
                rw [pow_add]
                ring

/-- The flush loop emits the base-`2^bb` digits of its residue. -/
theorem flushLoop_spec (bb : Nat) (hbb : 1 ≤ bb) :
    ∀ (v fuel : Nat), v < fuel →
      digitsVal (2 ^ bb) (BaseX.flushLoop bb (2 ^ bb - 1) fuel v) = v ∧
      ∀ d ∈ BaseX.flushLoop bb (2 ^ bb - 1) fuel v, d < 2 ^ bb := by
  intro v
  induction v using Nat.strong_induction_on with
  | _ v ih =>
      intro fuel hf
      have hpow : 0 < 2 ^ bb := Nat.pos_pow_of_pos bb (by omega)
      cases fuel with
      | zero => omega
      | succ f =>
          have heq : BaseX.flushLoop bb (2 ^ bb - 1) (f + 1) v =
              (if v = 0 then [] else
                (v &&& (2 ^ bb - 1)) :: BaseX.flushLoop bb (2 ^ bb - 1) f (v >>> bb)) := rfl
          by_cases hz : v = 0
          · subst hz
            rw [heq, if_pos rfl]
            exact ⟨rfl, by simp⟩
          · rw [heq, if_neg hz]
            have hdec : v >>> bb < v := by
              rw [Nat.shiftRight_eq_div_pow]
              exact Nat.div_lt_self (by omega)
                (Nat.one_lt_two_pow_iff.mpr (by omega))
            obtain ⟨ihv, ihb⟩ := ih (v >>> bb) hdec f (by omega)
            constructor
            · rw [digitsVal_cons, ihv, Nat.and_pow_two_sub_one_eq_mod,
                Nat.shiftRight_eq_div_pow]
              exact Nat.mod_add_div' v (2 ^ bb)
            · intro d hd
              rcases List.mem_cons.mp hd with hmem | hmem
              · subst hmem
                rw [Nat.and_pow_two_sub_one_eq_mod]
                exact Nat.mod_lt _ hpow
              · exact ihb d hmem

/-- The whole power-of-two digit extraction emits exactly the base-`2^bb`
digits (least significant first) of the half-digit vector's value. -/
theorem pow2Emit_spec (bb : Nat) (hbb : 1 ≤ bb) (hbb32 : bb ≤ 32)
    (halfs : List Nat) (hh : ∀ x ∈ halfs, x < 2 ^ 32) :
    digitsVal (2 ^ bb) (BaseX.pow2Emit bb (2 ^ bb - 1) halfs) = uint_t.valHalf halfs ∧
    ∀ d ∈ BaseX.pow2Emit bb (2 ^ bb - 1) halfs, d < 2 ^ bb := by
  cases halfs with
  | nil => exact ⟨rfl, by intro d hd; simp [BaseX.pow2Emit] at hd⟩
  | cons h0 rest =>
      have hh0 : h0 < 2 ^ 32 := hh h0 (by simp)
      have hv0 : (h0 <<< 32) % uint_t.dB = h0 * 2 ^ 32 := by
        rw [Nat.shiftLeft_eq]
        have : h0 * 2 ^ 32 < uint_t.dB := by
          show h0 * 2 ^ 32 < 2 ^ 64
          calc h0 * 2 ^ 32 < 2 ^ 32 * 2 ^ 32 := (Nat.mul_lt_mul_right (by norm_num)).mpr hh0
            _ = 2 ^ 64 := by norm_num
        exact Nat.mod_eq_of_lt this
      have hw64 : h0 * 2 ^ 32 < 2 ^ 64 := by
        calc h0 * 2 ^ 32 < 2 ^ 32 * 2 ^ 32 := (Nat.mul_lt_mul_right (by norm_num)).mpr hh0
          _ = 2 ^ 64 := by norm_num
      have heq0 : BaseX.pow2Emit bb (2 ^ bb - 1) (h0 :: rest) =
          (BaseX.windowLoop bb (2 ^ bb - 1) rest ((h0 <<< 32) % uint_t.dB) 0).1 ++
            BaseX.flushLoop bb (2 ^ bb - 1)
              ((BaseX.windowLoop bb (2 ^ bb - 1) rest ((h0 <<< 32) % uint_t.dB) 0).2.1 >>>
                  ((BaseX.windowLoop bb (2 ^ bb - 1) rest ((h0 <<< 32) % uint_t.dB) 0).2.2 + 32) + 1)
              ((BaseX.windowLoop bb (2 ^ bb - 1) rest ((h0 <<< 32) % uint_t.dB) 0).2.1 >>>
                ((BaseX.windowLoop bb (2 ^ bb - 1) rest ((h0 <<< 32) % uint_t.dB) 0).2.2 + 32)) := rfl
      rw [hv0] at heq0
      obtain ⟨ds, v2, s2, heqw, hv2, hs2, hbndw, hvalw⟩ :=
        windowLoop_spec bb hbb hbb32 rest (h0 * 2 ^ 32) 0 hw64 (by omega)
          (fun x hxm => hh x (by simp [hxm]))
      rw [heqw] at heq0
      simp only at heq0
      obtain ⟨hfv, hfb⟩ := flushLoop_spec bb hbb (v2 >>> (s2 + 32)) (v2 >>> (s2 + 32) + 1)
        (by omega)
      rw [heq0]
      constructor
      · rw [digitsVal_append, hfv]
        rw [show (2 ^ bb : Nat) ^ ds.length = 2 ^ (bb * ds.length) from (pow_mul 2 bb _).symm]
        rw [show s2 + 32 = 32 + s2 from by omega]
        have hh0v : (h0 * 2 ^ 32) >>> (32 + 0) = h0 := by
          rw [Nat.shiftRight_eq_div_pow]
          exact Nat.mul_div_cancel _ (by norm_num)
        rw [Nat.mul_comm (v2 >>> (32 + s2)) (2 ^ (bb * ds.length)), hvalw, hh0v]
        show h0 + 2 ^ (32 - 0) * uint_t.valHalf rest = uint_t.valHalf (h0 :: rest)
        have : uint_t.valHalf (h0 :: rest) = h0 + uint_t.valHalf rest * 2 ^ 32 := rfl
        rw [this]
        ring_nf
      · intro d hd
        rcases List.mem_append.mp hd with hmem | hmem
        · exact hbndw d hmem
        · exact hfb d hmem

/-! From digits to half digits and back to bytes. -/

theorem toHalfs_cons (d : Nat) (t : List Nat) :
    BaseX.toHalfs (d :: t) = d % 2 ^ 32 :: d / 2 ^ 32 % 2 ^ 32 :: BaseX.toHalfs t := rfl

theorem toHalfs_length : ∀ l : List Nat, (BaseX.toHalfs l).length = 2 * l.length := by
  intro l
  induction l with
  | nil => rfl
  | cons d t ih =>
      rw [toHalfs_cons]
      simp only [List.length_cons, ih]
      omega

theorem toHalfs_bound : ∀ l : List Nat, ∀ x ∈ BaseX.toHalfs l, x < 2 ^ 32 := by
  intro l
  induction l with
  | nil => intro x hx; simp [BaseX.toHalfs] at hx
  | cons d t ih =>
      intro x hx
      rw [toHalfs_cons] at hx
      rcases List.mem_cons.mp hx with h | hx2
      · subst h; exact Nat.mod_lt _ (by norm_num)
      rcases List.mem_cons.mp hx2 with h | h
      · subst h; exact Nat.mod_lt _ (by norm_num)
      · exact ih x h

theorem valHalf_cons (x : Nat) (t : List Nat) :
    uint_t.valHalf (x :: t) = x + uint_t.valHalf t * 2 ^ 32 := rfl

theorem valHalf_toHalfs : ∀ l : List Nat, (∀ d ∈ l, d < uint_t.dB) →
    uint_t.valHalf (BaseX.toHalfs l) = uint_t.valList l := by
  intro l
  induction l with
  | nil => intro _; simp [BaseX.toHalfs, uint_t.valHalf, uint_t.valList]
  | cons d t ih =>
      intro hb
      have hd : d < uint_t.dB := hb d (by simp)
      rw [toHalfs_cons, valHalf_cons, valHalf_cons, ih (fun x hx => hb x (by simp [hx]))]
      have hq : d / 2 ^ 32 % 2 ^ 32 = d / 2 ^ 32 := by
        apply Nat.mod_eq_of_lt
        apply Nat.div_lt_of_lt_mul
        calc d < uint_t.dB := hd
          _ = 2 ^ 32 * 2 ^ 32 := by norm_num [uint_t.dB]
      rw [hq]
      show d % 2 ^ 32 + (d / 2 ^ 32 + uint_t.valList t * 2 ^ 32) * 2 ^ 32 =
        d + uint_t.valList t * uint_t.dB
      have hdm : d % 2 ^ 32 + 2 ^ 32 * (d / 2 ^ 32) = d := Nat.mod_add_div _ _
      have hdb : uint_t.valList t * 2 ^ 32 * 2 ^ 32 = uint_t.valList t * uint_t.dB := by
        rw [Nat.mul_assoc]
        norm_num [uint_t.dB]
      rw [Nat.add_mul, hdb]
      omega

theorem padTo_eq (l : List Nat) : BaseX.padTo l.length l = l := by
  unfold BaseX.padTo
  simp

theorem lshift_zero (l : List Nat) : uint_t.lshift l 0 = l := rfl

theorem digitsVal_replicate_zero (B : Nat) : ∀ k, digitsVal B (List.replicate k 0) = 0 := by
  intro k
  induction k with
  | zero => rfl
  | succ n ih => rw [List.replicate_succ, digitsVal_cons, ih]; ring

theorem beVal_replicate_zero_append (B : Nat) (s : List Nat) :
    ∀ k, beVal B (List.replicate k 0 ++ s) = beVal B s := by
  intro k
  induction k with
  | zero => rfl
  | succ n ih =>
      rw [List.replicate_succ, List.cons_append, beVal_cons, ih]
      ring

/-- `groups8` on a buffer of `8 * n` bytes below 256: the digits carry the
buffer's base-256 value, they are 64-bit bounded, and `digitBytes`
reproduces the buffer exactly. -/
theorem groups8_spec (n : Nat) : ∀ buf : List Nat, buf.length = 8 * n →
    (∀ b ∈ buf, b < 256) →
    uint_t.valList (uint_t.groups8 buf) = digitsVal 256 buf ∧
    (∀ d ∈ uint_t.groups8 buf, d < uint_t.dB) ∧
    ((uint_t.groups8 buf).map uint_t.digitBytes).flatten = buf := by
  induction n with
  | zero =>
      intro buf hl _
      have : buf = [] := List.eq_nil_of_length_eq_zero (by omega)
      subst this
      refine ⟨by simp [uint_t.groups8, uint_t.valList, digitsVal],
        by simp [uint_t.groups8], by simp [uint_t.groups8]⟩
  | succ n ih =>
      intro buf hl hb
      match buf, hl with
      | b0 :: b1 :: b2 :: b3 :: b4 :: b5 :: b6 :: b7 :: rest, hl =>
          have hrl : rest.length = 8 * n := by simp at hl; omega
          have hrb : ∀ b ∈ rest, b < 256 := fun b hbm => hb b (by simp [hbm])
          obtain ⟨ihv, ihb, ihby⟩ := ih rest hrl hrb
          have hg : uint_t.groups8 (b0 :: b1 :: b2 :: b3 :: b4 :: b5 :: b6 :: b7 :: rest) =
              uint_t.bytesToDigit [b0, b1, b2, b3, b4, b5, b6, b7] :: uint_t.groups8 rest := by
            rw [uint_t.groups8]
          have hb0 : b0 < 256 := hb b0 (by simp)
          have hb1 : b1 < 256 := hb b1 (by simp)
          have hb2 : b2 < 256 := hb b2 (by simp)
          have hb3 : b3 < 256 := hb b3 (by simp)
          have hb4 : b4 < 256 := hb b4 (by simp)
          have hb5 : b5 < 256 := hb b5 (by simp)
          have hb6 : b6 < 256 := hb b6 (by simp)
          have hb7 : b7 < 256 := hb b7 (by simp)
          refine ⟨?_, ?_, ?_⟩
          · rw [hg]
            show uint_t.bytesToDigit [b0, b1, b2, b3, b4, b5, b6, b7] +
              uint_t.valList (uint_t.groups8 rest) * uint_t.dB = _
            rw [ihv]
            rw [show b0 :: b1 :: b2 :: b3 :: b4 :: b5 :: b6 :: b7 :: rest =
              [b0, b1, b2, b3, b4, b5, b6, b7] ++ rest from rfl]
            rw [digitsVal_append]
            rw [bytesToDigit_eq_digitsVal]
            norm_num [uint_t.dB]
          · rw [hg]
            intro d hd
            rcases List.mem_cons.mp hd with h | h
            · subst h
              rw [bytesToDigit_eq_digitsVal]
              have := digitsVal_lt 256 [b0, b1, b2, b3, b4, b5, b6, b7] (by
                intro x hx
                simp at hx
                rcases hx with h|h|h|h|h|h|h|h <;> (subst h; assumption))
              calc digitsVal 256 [b0, b1, b2, b3, b4, b5, b6, b7] <
                  256 ^ ([b0, b1, b2, b3, b4, b5, b6, b7] : List Nat).length := this
                _ = uint_t.dB := by norm_num [uint_t.dB]
            · exact ihb d h
          · rw [hg, List.map_cons, List.flatten_cons, ihby]
            have hbd : uint_t.digitBytes (uint_t.bytesToDigit [b0, b1, b2, b3, b4, b5, b6, b7]) =
                [b0, b1, b2, b3, b4, b5, b6, b7] := by
              simp only [uint_t.bytesToDigit, uint_t.digitBytes, List.foldr,
                List.cons.injEq, and_true]
              refine ⟨?_, ?_, ?_, ?_, ?_, ?_, ?_, ?_⟩ <;> omega
            rw [hbd]
            rfl

/-- `strtouint` in base 256 on a non-empty byte string: the digits hold the
big-endian value of the bytes, are 64-bit bounded, number `ceil(size/8)`,
and flatten back (via `digitBytes`) to the zero-padded reversed buffer. -/
theorem strtouint256_spec (s : List Nat) (hne : s ≠ []) (hb : ∀ b ∈ s, b < 256) :
    ∃ num, uint_t.strtouint256 s = .ok num ∧
      num.length = (s.length + 7) / 8 ∧
      uint_t.valList num = beVal 256 s ∧
      (∀ d ∈ num, d < uint_t.dB) ∧
      (num.map uint_t.digitBytes).flatten =
        (List.replicate (if s.length % 8 ≠ 0 then 8 - s.length % 8 else 0) 0 ++ s).reverse := by
  have hlne : s.length ≠ 0 := by
    intro h
    exact hne (List.eq_nil_of_length_eq_zero h)
  refine ⟨uint_t.groups8
    ((List.replicate (if s.length % 8 ≠ 0 then 8 - s.length % 8 else 0) 0 ++ s).reverse),
    ?_, ?_, ?_, ?_, ?_⟩
  · unfold uint_t.strtouint256
    rw [if_pos hlne]
  all_goals {
    have hbuf : ((List.replicate (if s.length % 8 ≠ 0 then 8 - s.length % 8 else 0) 0 ++
        s).reverse).length = 8 * ((s.length + 7) / 8) := by
      simp only [List.length_reverse, List.length_append, List.length_replicate]
      by_cases h8 : s.length % 8 = 0
      · rw [if_neg (by omega)]
        omega
      · rw [if_pos h8]
        omega
    have hbufb : ∀ b ∈ (List.replicate (if s.length % 8 ≠ 0 then 8 - s.length % 8 else 0) 0 ++
        s).reverse, b < 256 := by
      intro b hbm
      rw [List.mem_reverse] at hbm
      rcases List.mem_append.mp hbm with h | h
      · have := List.eq_of_mem_replicate h
        omega
      · exact hb b h
    obtain ⟨hv, hbd, hby⟩ := groups8_spec ((s.length + 7) / 8) _ hbuf hbufb
    first
    | exact groups8_length _ _ hbuf
    | exact hbd
    | exact hby
    | (rw [hv, digitsVal_reverse, List.reverse_reverse]
       exact beVal_replicate_zero_append 256 s _)
  }

theorem dropWhile_replicate_zero_append (b : Nat) (t : List Nat) (hb : b ≠ 0) :
    ∀ k, (List.replicate k 0 ++ b :: t).dropWhile (fun d => d == 0) = b :: t := by
  intro k
  induction k with
  | zero =>
      show (b :: t).dropWhile (fun d => d == 0) = b :: t
      rw [List.dropWhile_cons_of_neg (by simpa using hb)]
  | succ n ih =>
      rw [List.replicate_succ, List.cons_append,
        List.dropWhile_cons_of_pos (by simp)]
      exact ih

/-- For a byte string with a non-zero leading byte, `str(256)` of the
canonical digit vector of its value reproduces the string: the digit
vector is exactly `strtouint256` of the string (which is canonical here),
its byte image is the zero-padded reversed buffer, and the strip-reverse
of `str` peels the padding back off. -/
theorem str256N_beVal (b : Nat) (t : List Nat) (hb0 : 0 < b)
    (hb : ∀ x ∈ b :: t, x < 256) :
    uint_t.str256N (beVal 256 (b :: t)) = b :: t := by
  obtain ⟨num, heq, hlen, hval, hbd, hby⟩ := strtouint256_spec (b :: t) (by simp) hb
  have hlenpos : 1 ≤ num.length := by
    rw [hlen]
    simp only [List.length_cons]
    omega
  have hnum_ne : num ≠ [] := by
    intro h
    subst h
    simp at hlenpos
  have hlow : uint_t.dB ^ (num.length - 1) ≤ uint_t.valList num := by
    rw [hval, hlen]
    have h1 : 256 ^ t.length ≤ beVal 256 (b :: t) := by
      rw [beVal_cons]
      calc (256 : Nat) ^ t.length = 1 * 256 ^ t.length := by ring
        _ ≤ b * 256 ^ t.length := Nat.mul_le_mul_right _ (by omega)
        _ ≤ b * 256 ^ t.length + beVal 256 t := by omega
    have h2 : uint_t.dB ^ (((b :: t).length + 7) / 8 - 1) ≤ 256 ^ t.length := by
      show (2 ^ 64 : Nat) ^ (((b :: t).length + 7) / 8 - 1) ≤ 256 ^ t.length
      rw [← pow_mul]
      rw [show (256 : Nat) = 2 ^ 8 from by norm_num, ← pow_mul]
      apply Nat.pow_le_pow_right (by norm_num)
      simp only [List.length_cons]
      omega
    omega
  have hcanon : uint_t.canonicalB num = true :=
    canonical_of_val_lower num hnum_ne hbd hlow
  have hnd : uint_t.natDigits (beVal 256 (b :: t)) = num := by
    rw [← hval]
    exact natDigits_of_canonical num hbd hcanon
  unfold uint_t.str256N
  rw [hnd]
  unfold uint_t.str256
  rw [if_pos (by omega)]
  have hstrip : uint_t.stripZeros
      ((List.replicate (if (b :: t).length % 8 ≠ 0 then 8 - (b :: t).length % 8 else 0) 0 ++
        b :: t).reverse) = (b :: t).reverse := by
    unfold uint_t.stripZeros
    rw [List.reverse_reverse, dropWhile_replicate_zero_append b t (by omega)]
  rw [hby, hstrip, List.reverse_reverse]

/-- The configuration facts the round-trip rests on, all decidable per
codec: a base of at least 2 and at most 256, no block padding, coherent
power-of-two fields, and an `ord` table that inverts the `chr` table on
the digit range. -/
def GoodCfg (cfg : BaseXCfg) : Prop :=
  2 ≤ cfg.base ∧ cfg.base ≤ 256 ∧ cfg.block_size = 0 ∧
  (cfg.base_bits ≠ 0 →
    1 ≤ cfg.base_bits ∧ cfg.base_bits ≤ 32 ∧
    cfg.base = 2 ^ cfg.base_bits ∧ cfg.base_mask = 2 ^ cfg.base_bits - 1) ∧
  ∀ d, d < cfg.base → cfg.ordOf (cfg.chrOf d) = d

instance (cfg : BaseXCfg) : Decidable (GoodCfg cfg) := by
  unfold GoodCfg
  infer_instance

/-- On a payload of valid characters the decode loop accumulates the
big-endian base value of the digit sequence, in both the shift-or branch
(power-of-two bases) and the multiply-add branch. -/
theorem decodeGo_ok (cfg : BaseXCfg) (hG : GoodCfg cfg) :
    ∀ (payload : List Nat) (acc sum : Nat),
      (∀ c ∈ payload, cfg.ordOf c < cfg.base) →
      ∃ sum2, BaseX.decodeGo cfg (cfg.base_bits != 0) acc sum payload =
        .ok (acc * cfg.base ^ payload.length + beVal cfg.base (payload.map cfg.ordOf), sum2) := by
  obtain ⟨hb2, hb256, hbk, hpw, hord⟩ := hG
  intro payload
  induction payload with
  | nil =>
      intro acc sum _
      exact ⟨sum, by simp [BaseX.decodeGo, beVal]⟩
  | cons c rest ih =>
      intro acc sum hv
      have hd : cfg.ordOf c < cfg.base := hv c (by simp)
      obtain ⟨sum2, ih2⟩ := ih (acc * cfg.base + cfg.ordOf c) (sum ^^^ cfg.ordOf c)
        (fun x hx => hv x (by simp [hx]))
      have hgoal : (acc * cfg.base + cfg.ordOf c) * cfg.base ^ rest.length +
          beVal cfg.base (rest.map cfg.ordOf) =
          acc * cfg.base ^ (c :: rest).length + beVal cfg.base ((c :: rest).map cfg.ordOf) := by
        rw [List.map_cons, beVal_cons, List.length_map, List.length_cons, pow_succ]
        ring
      by_cases hbb : cfg.base_bits = 0
      · have hpwf : (cfg.base_bits != 0) = false := by simp [hbb]
        rw [hpwf] at ih2 ⊢
        have hstep : BaseX.decodeGo cfg false acc sum (c :: rest) =
            if cfg.ordOf c ≥ cfg.base then .error .invalidChar
            else BaseX.decodeGo cfg false (acc * cfg.base + cfg.ordOf c)
              (sum ^^^ cfg.ordOf c) rest := rfl
        rw [hstep, if_neg (by omega), ih2]
        exact ⟨sum2, by rw [hgoal]⟩
      · obtain ⟨hbb1, hbb32, hbase_eq, hmask⟩ := hpw hbb
        have hpwt : (cfg.base_bits != 0) = true := by simp [hbb]
        rw [hpwt] at ih2 ⊢
        have hstep : BaseX.decodeGo cfg true acc sum (c :: rest) =
            if cfg.ordOf c ≥ cfg.base then .error .invalidChar
            else BaseX.decodeGo cfg true ((acc <<< cfg.base_bits) ||| cfg.ordOf c)
              (sum ^^^ cfg.ordOf c) rest := rfl
        have hsh : (acc <<< cfg.base_bits) ||| cfg.ordOf c = acc * cfg.base + cfg.ordOf c := by
          rw [Nat.shiftLeft_eq, Nat.lor_comm,
            lor_mul_pow_eq_add cfg.base_bits (cfg.ordOf c) acc (by omega)]
          rw [← hbase_eq]
          ring
        rw [hstep, if_neg (by omega), hsh, ih2]
        exact ⟨sum2, by rw [hgoal]⟩

/-- `decode` without the checksum option, on an all-valid payload, returns
the big-endian base value of the digit sequence. -/
theorem decode_ok (cfg : BaseXCfg) (hG : GoodCfg cfg) (payload : List Nat)
    (hv : ∀ c ∈ payload, cfg.ordOf c < cfg.base) :
    BaseX.decode cfg payload false = .ok (beVal cfg.base (payload.map cfg.ordOf)) := by
  obtain ⟨sum2, hgo⟩ := decodeGo_ok cfg hG payload 0 0 hv
  have h1 : BaseX.decode cfg payload false =
      (match BaseX.decodeGo cfg (cfg.base_bits != 0) 0 0 payload with
       | .error e => .error e
       | .ok (acc, _) =>
           .ok (acc >>>
             (if cfg.block_size ≠ 0 then (payload.length * cfg.block_size) % 8 else 0))) := rfl
  obtain ⟨_, _, hbk, _, _⟩ := hG
  rw [h1, hgo, hbk]
  simp

theorem dropWhile_map_beq (f : Nat → Nat) :
    ∀ m : List Nat, (∀ d ∈ m, f d = f 0 ↔ d = 0) →
      (m.map f).dropWhile (fun c => c == f 0) =
        (m.dropWhile (fun c => c == 0)).map f := by
  intro m
  induction m with
  | nil => intro _; rfl
  | cons a t ih =>
      intro hf
      have ha := hf a (by simp)
      by_cases h0 : a = 0
      · subst h0
        rw [List.map_cons, List.dropWhile_cons_of_pos (by simp),
          List.dropWhile_cons_of_pos (by simp)]
        exact ih (fun d hd => hf d (by simp [hd]))
      · rw [List.map_cons,
          List.dropWhile_cons_of_neg (by
            simp only [beq_iff_eq]
            intro hcon
            exact h0 (ha.mp hcon)),
          List.dropWhile_cons_of_neg (by
            simp only [beq_iff_eq]
            exact h0)]
        rfl

/-- Shrinking the trailing `chr 0` characters commutes with mapping `chr`,
when `chr` separates 0 from the digits present. -/
theorem dropTrailEq_map (f : Nat → Nat) (l : List Nat)
    (hf : ∀ d ∈ l, f d = f 0 ↔ d = 0) :
    BaseX.dropTrailEq (f 0) (l.map f) = (BaseX.dropTrailEq 0 l).map f := by
  unfold BaseX.dropTrailEq
  rw [← List.map_reverse]
  rw [dropWhile_map_beq f l.reverse (fun d hd => hf d (List.mem_reverse.mp hd))]
  rw [List.map_reverse]

/-- `dropTrailEq 0` only keeps digits of the input. -/
theorem dropTrailEq_zero_subset (l : List Nat) :
    ∀ d ∈ BaseX.dropTrailEq 0 l, d ∈ l := by
  have h : BaseX.dropTrailEq 0 l = uint_t.stripZeros l := rfl
  rw [h]
  exact stripZeros_subset l

/-- `encode` (without checksum, no block padding) writes the base digits
of the value least-significant first, maps them through `chr`, shrinks the
trailing zero characters when the base is a power of two, and reverses. -/
theorem encodeNum_ok (cfg : BaseXCfg) (hG : GoodCfg cfg) (num : List Nat)
    (hne : num ≠ []) (hbd : ∀ d ∈ num, d < uint_t.dB)
    (hc : uint_t.canonicalB num = true) :
    ∃ emitted, (∀ d ∈ emitted, d < cfg.base) ∧
      digitsVal cfg.base emitted = uint_t.valList num ∧
      BaseX.encodeNum cfg num false =
        (if cfg.base_bits ≠ 0 then
           BaseX.dropTrailEq (cfg.chrOf 0) (emitted.map cfg.chrOf)
         else emitted.map cfg.chrOf).reverse := by
  have hlen : num.length ≠ 0 := fun h => hne (List.eq_nil_of_length_eq_zero h)
  obtain ⟨hb2, hb256, hbk, hpw, hord⟩ := hG
  have hbp : (if cfg.block_size ≠ 0 then
      BaseX.bpOf (uint_t.bits num) cfg.block_size else 0) = 0 := by
    rw [hbk]
    simp
  have h0 : BaseX.encodeNum cfg num false =
      if num.length ≠ 0 then
        (if cfg.base_bits ≠ 0 then
           BaseX.dropTrailEq (cfg.chrOf 0)
             ((if cfg.base_bits ≠ 0 then
                 BaseX.pow2Emit cfg.base_bits cfg.base_mask
                   (BaseX.padTo (2 * num.length)
                     (BaseX.toHalfs (uint_t.lshift num
                       (if cfg.block_size ≠ 0 then
                         BaseX.bpOf (uint_t.bits num) cfg.block_size else 0))))
               else
                 BaseX.encodeDivLoop cfg
                   (uint_t.valList (uint_t.lshift num
                     (if cfg.block_size ≠ 0 then
                       BaseX.bpOf (uint_t.bits num) cfg.block_size else 0)) + 1)
                   (uint_t.lshift num
                     (if cfg.block_size ≠ 0 then
                       BaseX.bpOf (uint_t.bits num) cfg.block_size else 0))).map cfg.chrOf)
         else
           (if cfg.base_bits ≠ 0 then
              BaseX.pow2Emit cfg.base_bits cfg.base_mask
                (BaseX.padTo (2 * num.length)
                  (BaseX.toHalfs (uint_t.lshift num
                    (if cfg.block_size ≠ 0 then
                      BaseX.bpOf (uint_t.bits num) cfg.block_size else 0))))
            else
              BaseX.encodeDivLoop cfg
                (uint_t.valList (uint_t.lshift num
                  (if cfg.block_size ≠ 0 then
                    BaseX.bpOf (uint_t.bits num) cfg.block_size else 0)) + 1)
                (uint_t.lshift num
                  (if cfg.block_size ≠ 0 then
                    BaseX.bpOf (uint_t.bits num) cfg.block_size else 0))).map cfg.chrOf).reverse
      else [cfg.chrOf 0] := rfl
  have henc : BaseX.encodeNum cfg num false =
      (if cfg.base_bits ≠ 0 then
         BaseX.dropTrailEq (cfg.chrOf 0)
           ((if cfg.base_bits ≠ 0 then
               BaseX.pow2Emit cfg.base_bits cfg.base_mask
                 (BaseX.padTo (2 * num.length) (BaseX.toHalfs num))
             else
               BaseX.encodeDivLoop cfg (uint_t.valList num + 1) num).map cfg.chrOf)
       else
         (if cfg.base_bits ≠ 0 then
            BaseX.pow2Emit cfg.base_bits cfg.base_mask
              (BaseX.padTo (2 * num.length) (BaseX.toHalfs num))
          else
            BaseX.encodeDivLoop cfg (uint_t.valList num + 1) num).map cfg.chrOf).reverse := by
    rw [h0, if_pos hlen, hbp, lshift_zero]
  by_cases hbb : cfg.base_bits = 0
  · refine ⟨BaseX.encodeDivLoop cfg (uint_t.valList num + 1) num, ?_, ?_, ?_⟩
    all_goals {
      have hbdB : cfg.base < uint_t.dB := by
        calc cfg.base ≤ 256 := hb256
          _ < uint_t.dB := by norm_num [uint_t.dB]
      obtain ⟨hdv, hdb⟩ := encodeDivLoop_spec cfg hb2 hbdB (uint_t.valList num + 1) num
        (by omega) hbd hc
      first
      | exact hdb
      | exact hdv
      | (rw [henc, if_neg (by omega), if_neg (by omega), if_neg (by omega)])
      | (rw [henc, if_neg (by omega), if_neg (by omega)])
    }
  · obtain ⟨hbb1, hbb32, hbase_eq, hmask⟩ := hpw hbb
    have hpad : BaseX.padTo (2 * num.length) (BaseX.toHalfs num) = BaseX.toHalfs num := by
      rw [show 2 * num.length = (BaseX.toHalfs num).length from (toHalfs_length num).symm,
        padTo_eq]
    obtain ⟨hpv, hpb⟩ := pow2Emit_spec cfg.base_bits (by omega) hbb32 (BaseX.toHalfs num)
      (toHalfs_bound num)
    refine ⟨BaseX.pow2Emit cfg.base_bits cfg.base_mask
      (BaseX.padTo (2 * num.length) (BaseX.toHalfs num)), ?_, ?_, ?_⟩
    · rw [hpad, hmask, ← hbase_eq] at *
      intro d hd
      rw [hbase_eq]
      exact hpb d hd
    · rw [hpad, hmask, hbase_eq]
      rw [hpv]
      exact valHalf_toHalfs num hbd
    · rw [henc, if_pos hbb, if_pos hbb, if_pos hbb]

theorem map_ord_chr (cfg : BaseXCfg)
    (hord : ∀ d, d < cfg.base → cfg.ordOf (cfg.chrOf d) = d) :
    ∀ m : List Nat, (∀ d ∈ m, d < cfg.base) →
      List.map cfg.ordOf (List.map cfg.chrOf m) = m := by
  intro m
  induction m with
  | nil => intro _; rfl
  | cons a t ih =>
      intro hm
      simp only [List.map_cons]
      rw [hord a (hm a (by simp)), ih (fun d hd => hm d (by simp [hd]))]

/-- Decoding the encoding of a canonical digit vector recovers its value,
for any codec satisfying `GoodCfg` (no checksum). -/
theorem roundtrip_num (cfg : BaseXCfg) (hG : GoodCfg cfg) (num : List Nat)
    (hne : num ≠ []) (hbd : ∀ d ∈ num, d < uint_t.dB)
    (hc : uint_t.canonicalB num = true) :
    BaseX.decode cfg (BaseX.encodeNum cfg num false) false = .ok (uint_t.valList num) := by
  obtain ⟨emitted, hlt, hval, henc⟩ := encodeNum_ok cfg hG num hne hbd hc
  have hord : ∀ d, d < cfg.base → cfg.ordOf (cfg.chrOf d) = d := hG.2.2.2.2
  have hb2 : 2 ≤ cfg.base := hG.1
  rw [henc]
  by_cases hbb : cfg.base_bits = 0
  · rw [if_neg (by omega)]
    have hvalid : ∀ c ∈ (emitted.map cfg.chrOf).reverse, cfg.ordOf c < cfg.base := by
      intro c hcm
      rw [List.mem_reverse] at hcm
      obtain ⟨d, hdm, rfl⟩ := List.mem_map.mp hcm
      rw [hord d (hlt d hdm)]
      exact hlt d hdm
    rw [decode_ok cfg hG _ hvalid]
    congr 1
    rw [List.map_reverse, map_ord_chr cfg hord emitted hlt]
    rw [← digitsVal_reverse, hval]
  · rw [if_pos hbb]
    have hchr0 : ∀ d ∈ emitted, cfg.chrOf d = cfg.chrOf 0 ↔ d = 0 := by
      intro d hdm
      constructor
      · intro hcc
        have h1 := hord d (hlt d hdm)
        have h2 := hord 0 (by omega)
        rw [hcc, h2] at h1
        omega
      · intro h; rw [h]
    rw [dropTrailEq_map cfg.chrOf emitted hchr0]
    have hvalid : ∀ c ∈ ((BaseX.dropTrailEq 0 emitted).map cfg.chrOf).reverse,
        cfg.ordOf c < cfg.base := by
      intro c hcm
      rw [List.mem_reverse] at hcm
      obtain ⟨d, hdm, rfl⟩ := List.mem_map.mp hcm
      have hdm2 := dropTrailEq_zero_subset emitted d hdm
      rw [hord d (hlt d hdm2)]
      exact hlt d hdm2
    rw [decode_ok cfg hG _ hvalid]
    congr 1
    rw [List.map_reverse, map_ord_chr cfg hord (BaseX.dropTrailEq 0 emitted)
      (fun d hdm => hlt d (dropTrailEq_zero_subset emitted d hdm))]
    rw [← digitsVal_reverse, digitsVal_dropTrailEq_zero, hval]

/-- `strtouint256` of a byte string with a non-zero leading byte: the digit
vector carries the string's base-256 value and is canonical. -/
theorem strtouint256_canonical (b : Nat) (t : List Nat) (hb0 : 0 < b)
    (hb : ∀ x ∈ b :: t, x < 256) :
    ∃ num, uint_t.strtouint256 (b :: t) = .ok num ∧ num ≠ [] ∧
      (∀ d ∈ num, d < uint_t.dB) ∧ uint_t.canonicalB num = true ∧
      uint_t.valList num = beVal 256 (b :: t) := by
  obtain ⟨num, heq, hlen, hval, hbd, _⟩ := strtouint256_spec (b :: t) (by simp) hb
  have hlenpos : 1 ≤ num.length := by
    rw [hlen]
    simp only [List.length_cons]
    omega
  have hnum_ne : num ≠ [] := by
    intro h
    subst h
    simp at hlenpos
  have hlow : uint_t.dB ^ (num.length - 1) ≤ uint_t.valList num := by
    rw [hval, hlen]
    have h1 : 256 ^ t.length ≤ beVal 256 (b :: t) := by
      rw [beVal_cons]
      calc (256 : Nat) ^ t.length = 1 * 256 ^ t.length := by ring
        _ ≤ b * 256 ^ t.length := Nat.mul_le_mul_right _ (by omega)
        _ ≤ b * 256 ^ t.length + beVal 256 t := by omega
    have h2 : uint_t.dB ^ (((b :: t).length + 7) / 8 - 1) ≤ 256 ^ t.length := by
      show (2 ^ 64 : Nat) ^ (((b :: t).length + 7) / 8 - 1) ≤ 256 ^ t.length
      rw [← pow_mul]
      rw [show (256 : Nat) = 2 ^ 8 from by norm_num, ← pow_mul]
      apply Nat.pow_le_pow_right (by norm_num)
      simp only [List.length_cons]
      omega
    omega
  exact ⟨num, heq, hnum_ne, hbd, canonical_of_val_lower num hnum_ne hbd hlow, hval⟩

/-- The byte-level round trip for a `GoodCfg` codec and a byte string with
a non-zero leading byte: encode succeeds and decode undoes it. -/
theorem roundtrip_bytes (cfg : BaseXCfg) (hG : GoodCfg cfg) (b : Nat) (t : List Nat)
    (hb0 : 0 < b) (hb : ∀ x ∈ b :: t, x < 256) :
    ∃ chars, BaseX.encodeBytes cfg (b :: t) false = .ok chars ∧
      BaseX.decodeBytes cfg chars false = .ok (b :: t) := by
  obtain ⟨num, heq, hnum_ne, hbd, hcanon, hval⟩ := strtouint256_canonical b t hb0 hb
  refine ⟨BaseX.encodeNum cfg num false, ?_, ?_⟩
  · unfold BaseX.encodeBytes
    rw [heq]
  · have hdec : BaseX.decode cfg (BaseX.encodeNum cfg num false) false =
        .ok (uint_t.valList num) := roundtrip_num cfg hG num hnum_ne hbd hcanon
    have hd2 : BaseX.decodeBytes cfg (BaseX.encodeNum cfg num false) false =
        .ok (uint_t.str256N (uint_t.valList num)) := by
      unfold BaseX.decodeBytes
      rw [hdec]
    rw [hd2, hval, str256N_beVal b t hb0 hb]

/-! ## Claim C2: the byte-level round trip of the bundled codecs -/

set_option maxRecDepth 4000 in
/-- Counterexample to C2 as stated: a leading zero byte does not survive
the round trip, because encode goes through the numeric value of the
string.  In `base16::base16`, encode([0x00, 0x01]) is the string "1" and
decode("1") gives back the single byte [0x01]. -/
theorem C2_roundtrip_counterexample :
    BaseX.encodeBytes base16C [0, 1] false = .ok (strBytes "1") ∧
      BaseX.decodeBytes base16C (strBytes "1") false = .ok [1] ∧
      [1] ≠ [0, 1] := by
  refine ⟨by decide, by decide, by decide⟩

set_option maxRecDepth 8000 in
/-- C2 as amended: for each of the eighteen bundled codecs without block
padding (the four `rfc4648` padded variants excepted), and for every
non-empty byte string whose leading byte is non-zero, decoding the
encoding (no checksum) returns the original bytes.  Leading zero bytes
are NOT preserved (see the counterexample), the empty string throws in
encode, and the four `BLOCK_PADDING` codecs can drop the top bits of an
input whose pre-shift overflows the captured digit count. -/
theorem C2_roundtrip_amended :
    ∀ cfg ∈ [base2C, base8C, base11C, base16C, base16rfc, base32C, base32hexC,
        base32crockfordC, base36C, base58gmpC, base58bitcoinC, base58rippleC,
        base58flickrC, base62C, base62invertedC, base64C, base64urlC, base66C],
      ∀ b t, 0 < b → b < 256 → (∀ x ∈ t, x < 256) →
        ∃ chars, BaseX.encodeBytes cfg (b :: t) false = .ok chars ∧
          BaseX.decodeBytes cfg chars false = .ok (b :: t) := by
  intro cfg hcfg b t hb0 hb256 ht
  have hbx : ∀ x ∈ b :: t, x < 256 := by
    intro x hx
    rcases List.mem_cons.mp hx with h | h
    · subst h; omega
    · exact ht x h
  have hG : GoodCfg cfg := by
    fin_cases hcfg <;> decide
  exact roundtrip_bytes cfg hG b t hb0 hbx

/-- Witness for `C2_roundtrip_amended` at a concrete input: the codec
`base16::base16` on the two bytes "Hi". -/
theorem C2_roundtrip_amended_witness :
    ∃ chars, BaseX.encodeBytes base16C [72, 105] false = .ok chars ∧
      BaseX.decodeBytes base16C chars false = .ok [72, 105] :=
  C2_roundtrip_amended base16C (by simp) 72 [105] (by decide) (by decide) (by decide)
